import Mathlib

/-!
Replacement policies of the set-associative cache simulator.

Shallow embedding of `src/replacement_policies.c`.

* `uint32_t` values are natural numbers; every arithmetic operation that can
  overflow in the source is reduced modulo `2 ^ 32` in the embedding.
* The C arrays `access_times` and `cache_lines` are lists.  A read or write
  outside a list is undefined behaviour in C and is the result `none` here,
  as is the division by zero in `index % associativity`.
* The locals `index` and `min_time` of the two eviction scans are declared
  without an initial value in the source.  Their indeterminate initial values
  are explicit arguments (`index0`, `min_time0`) of the embedded functions.
* A `for` loop `for (i = lo; i < hi; i++)` runs `hi - lo` iterations (none
  when `hi ≤ lo`); the loop functions recurse on that iteration count and carry
  the running index `i`.  Since `i < hi < 2 ^ 32` inside the body, `i++` never
  wraps.
-/

namespace ReplacementPolicies

/-! ## Data model -/

/-- Number of values of a `uint32_t`. -/
def UINT32_RANGE : Nat := 4294967296

/-- Modelled from the spec: the enumeration of line states is declared in a
header that is not part of the sources; the spec lists the three states
INVALID, CLEAN/SHARED and MODIFIED. -/
inductive status where
  | INVALID
  | CLEAN
  | MODIFIED
  deriving DecidableEq, Repr

open status

/-- Modelled from the spec: `struct cache_line` is declared in a header that is
not part of the sources; the code reads its fields `tag` and `status`. -/
structure cache_line where
  tag : Nat
  status : status
  deriving DecidableEq, Repr

/-- Modelled from the spec: `struct cache_system` is declared in a header that
is not part of the sources; the code reads its fields `associativity` and
`cache_lines` (one line per physical position, set after set). -/
structure cache_system where
  associativity : Nat
  cache_lines : List cache_line
  deriving DecidableEq, Repr

/-- The `struct lru_data` of the source: the number of lines, the logical clock
and the table of access timestamps. -/
structure lru_data where
  num_lines : Nat
  current_time : Nat
  access_times : List Nat
  deriving DecidableEq, Repr

/-- Lower loop bound `set_idx * associativity` in 32-bit arithmetic. -/
def set_begin (cs : cache_system) (set_idx : Nat) : Nat :=
  (set_idx * cs.associativity) % UINT32_RANGE

/-- Upper loop bound `(set_idx+1) * associativity` in 32-bit arithmetic. -/
def set_end (cs : cache_system) (set_idx : Nat) : Nat :=
  (((set_idx + 1) % UINT32_RANGE) * cs.associativity) % UINT32_RANGE

/-! ## LRU -/

/-- The loop of `lru_cache_access`, with `n` iterations left and running index
`i`: the first line whose tag equals `tag` gets the timestamp `now`, and the
loop is left (`break`). -/
def lru_cache_access_loop (lines : List cache_line) (tag now : Nat) :
    Nat → Nat → List Nat → Option (List Nat)
  | 0, _, times => some times
  | n + 1, i, times =>
    match lines[i]? with
    | none => none
    | some line =>
      if line.tag = tag then
        if i < times.length then some (times.set i now) else none
      else lru_cache_access_loop lines tag now n (i + 1) times

/-- The function `lru_cache_access`: the clock is incremented (32-bit), then the
lines of the set are scanned for the tag. -/
def lru_cache_access (data : lru_data) (cs : cache_system) (set_idx tag : Nat) :
    Option lru_data :=
  let current_time := (data.current_time + 1) % UINT32_RANGE
  match lru_cache_access_loop cs.cache_lines tag current_time
      (set_end cs set_idx - set_begin cs set_idx) (set_begin cs set_idx)
      data.access_times with
  | none => none
  | some times =>
    some { num_lines := data.num_lines, current_time := current_time, access_times := times }

/-- The state of the locals `min_time_set`, `min_time` and `index` of an
eviction scan. -/
structure scan_state where
  min_time_set : Bool
  min_time : Nat
  index : Nat
  deriving DecidableEq, Repr

/-- The loop of `lru_eviction_index`, with `n` iterations left and running
index `i`. -/
def lru_eviction_loop (times : List Nat) : Nat → Nat → scan_state → Option scan_state
  | 0, _, st => some st
  | n + 1, i, st =>
    match times[i]? with
    | none => none
    | some t =>
      if t < st.min_time || !st.min_time_set then
        lru_eviction_loop times n (i + 1) { min_time_set := true, min_time := t, index := i }
      else lru_eviction_loop times n (i + 1) st

/-- The function `lru_eviction_index`; `index0` and `min_time0` are the
indeterminate initial values of the locals `index` and `min_time`. -/
def lru_eviction_index (index0 min_time0 : Nat) (data : lru_data) (cs : cache_system)
    (set_idx : Nat) : Option Nat :=
  match lru_eviction_loop data.access_times
      (set_end cs set_idx - set_begin cs set_idx) (set_begin cs set_idx)
      { min_time_set := false, min_time := min_time0, index := index0 } with
  | none => none
  | some st => if cs.associativity = 0 then none else some (st.index % cs.associativity)

/-- The function `lru_replacement_policy_new` (the part that builds the
`lru_data`): `calloc` yields a zeroed table of `num_lines` entries and a zero
clock.  Allocation is taken to succeed. -/
def lru_replacement_policy_new (sets associativity : Nat) : lru_data :=
  { num_lines := (sets * associativity) % UINT32_RANGE
    current_time := 0
    access_times := List.replicate ((sets * associativity) % UINT32_RANGE) 0 }

/-! ## LRU_PREFER_CLEAN -/

/-- The function `lru_prefer_clean_cache_access`: a call of `lru_cache_access`. -/
def lru_prefer_clean_cache_access (data : lru_data) (cs : cache_system) (set_idx tag : Nat) :
    Option lru_data :=
  lru_cache_access data cs set_idx tag

/-- The loop of `lru_prefer_clean_eviction_index`, with `n` iterations left and
running index `i`: lines whose status is MODIFIED are skipped. -/
def lru_prefer_clean_eviction_loop (lines : List cache_line) (times : List Nat) :
    Nat → Nat → scan_state → Option scan_state
  | 0, _, st => some st
  | n + 1, i, st =>
    match lines[i]? with
    | none => none
    | some line =>
      if line.status ≠ MODIFIED then
        match times[i]? with
        | none => none
        | some t =>
          if t < st.min_time || !st.min_time_set then
            lru_prefer_clean_eviction_loop lines times n (i + 1)
              { min_time_set := true, min_time := t, index := i }
          else lru_prefer_clean_eviction_loop lines times n (i + 1) st
      else lru_prefer_clean_eviction_loop lines times n (i + 1) st

/-- The function `lru_prefer_clean_eviction_index`; `index0` and `min_time0`
are the indeterminate initial values of its own locals, `lru_index0` and
`lru_min_time0` those of the locals of the nested call of
`lru_eviction_index`. -/
def lru_prefer_clean_eviction_index (index0 min_time0 lru_index0 lru_min_time0 : Nat)
    (data : lru_data) (cs : cache_system) (set_idx : Nat) : Option Nat :=
  match lru_prefer_clean_eviction_loop cs.cache_lines data.access_times
      (set_end cs set_idx - set_begin cs set_idx) (set_begin cs set_idx)
      { min_time_set := false, min_time := min_time0, index := index0 } with
  | none => none
  | some st =>
    if !st.min_time_set then
      lru_eviction_index lru_index0 lru_min_time0 data cs set_idx
    else if cs.associativity = 0 then none
    else some (st.index % cs.associativity)

/-- The function `lru_prefer_clean_replacement_policy_new` (the part that
builds the `lru_data`), the same construction as for plain LRU. -/
def lru_prefer_clean_replacement_policy_new (sets associativity : Nat) : lru_data :=
  { num_lines := (sets * associativity) % UINT32_RANGE
    current_time := 0
    access_times := List.replicate ((sets * associativity) % UINT32_RANGE) 0 }

/-! ## RAND -/

/-- The function `rand_cache_access`: its body is empty.  The only state the
RAND policy touches is the state `gen` of the C library generator behind
`rand()`, and an access leaves it as it is. -/
def rand_cache_access {G : Type} (gen : G) (_cs : cache_system) (_set_idx _tag : Nat) : G :=
  gen

/-- The function `rand_eviction_index`: `rand()` is called once (`rand` maps
the generator state to the non-negative `int` drawn and the next state), and
the draw is reduced modulo the associativity. -/
def rand_eviction_index {G : Type} (rand : G → Nat × G) (gen : G) (cs : cache_system)
    (_set_idx : Nat) : Option (Nat × G) :=
  if cs.associativity = 0 then none
  else some ((rand gen).1 % cs.associativity, (rand gen).2)

/-- A sequence of `onAccess` calls of the RAND policy, run from left to right
with `rand_cache_access`. -/
def run_rand_accesses {G : Type} (cs : cache_system) : G → List (Nat × Nat) → G
  | gen, [] => gen
  | gen, (set_idx, tag) :: rest =>
    run_rand_accesses cs (rand_cache_access gen cs set_idx tag) rest

/-! ## Calls with explicit state passing -/

/-- The call `lru_eviction_index` with the state it leaves behind: the function
contains no store through `replacement_policy` or `cache_system`, so both are
handed back as they were received. -/
def lru_eviction_index_call (index0 min_time0 : Nat) (data : lru_data) (cs : cache_system)
    (set_idx : Nat) : Option (Nat × lru_data × cache_system) :=
  match lru_eviction_index index0 min_time0 data cs set_idx with
  | none => none
  | some offset => some (offset, data, cs)

/-- The call `lru_prefer_clean_eviction_index` with the state it leaves behind:
the function and the nested `lru_eviction_index` contain no store through
`replacement_policy` or `cache_system`. -/
def lru_prefer_clean_eviction_index_call (index0 min_time0 lru_index0 lru_min_time0 : Nat)
    (data : lru_data) (cs : cache_system) (set_idx : Nat) :
    Option (Nat × lru_data × cache_system) :=
  match lru_prefer_clean_eviction_index index0 min_time0 lru_index0 lru_min_time0 data cs
      set_idx with
  | none => none
  | some offset => some (offset, data, cs)

/-- A call made by the simulator through the function pointers of a
`replacement_policy`: `cache_access` (onAccess) or `eviction_index`
(selectVictim).  Each call sees the cache as it is at that moment; a
selectVictim call also carries the indeterminate initial values of the locals
of the scan and of the nested scan. -/
inductive policy_call where
  | on_access (cs : cache_system) (set_idx tag : Nat)
  | select_victim (index0 min_time0 lru_index0 lru_min_time0 : Nat) (cs : cache_system)
      (set_idx : Nat)

/-- The two policies that own an `lru_data`. -/
inductive lru_family where
  | LRU
  | LRU_PREFER_CLEAN
  deriving DecidableEq, Repr

/-- The constructor of a policy of the LRU family. -/
def lru_family_new : lru_family → Nat → Nat → lru_data
  | lru_family.LRU, sets, associativity => lru_replacement_policy_new sets associativity
  | lru_family.LRU_PREFER_CLEAN, sets, associativity =>
    lru_prefer_clean_replacement_policy_new sets associativity

/-- One call on a policy of the LRU family, dispatched as through the function
pointers `cache_access` and `eviction_index`; the result is the `lru_data`
after the call. -/
def lru_family_call : lru_family → lru_data → policy_call → Option lru_data
  | lru_family.LRU, data, policy_call.on_access cs set_idx tag =>
    lru_cache_access data cs set_idx tag
  | lru_family.LRU_PREFER_CLEAN, data, policy_call.on_access cs set_idx tag =>
    lru_prefer_clean_cache_access data cs set_idx tag
  | lru_family.LRU, data, policy_call.select_victim index0 min_time0 _ _ cs set_idx =>
    match lru_eviction_index_call index0 min_time0 data cs set_idx with
    | none => none
    | some (_, data', _) => some data'
  | lru_family.LRU_PREFER_CLEAN, data,
      policy_call.select_victim index0 min_time0 lru_index0 lru_min_time0 cs set_idx =>
    match lru_prefer_clean_eviction_index_call index0 min_time0 lru_index0 lru_min_time0
        data cs set_idx with
    | none => none
    | some (_, data', _) => some data'

/-- A sequence of calls on a policy of the LRU family, run from left to
right. -/
def run_calls (kind : lru_family) : lru_data → List policy_call → Option lru_data
  | data, [] => some data
  | data, call :: rest =>
    match lru_family_call kind data call with
    | none => none
    | some data' => run_calls kind data' rest

/-- Number of `onAccess` calls in a sequence of calls. -/
def count_accesses : List policy_call → Nat
  | [] => 0
  | policy_call.on_access _ _ _ :: rest => count_accesses rest + 1
  | policy_call.select_victim _ _ _ _ _ _ :: rest => count_accesses rest

/-- A call that respects the geometry `(sets, associativity)`: the cache has
that associativity and `sets * associativity` lines, and the set index is below
`sets`. -/
def valid_call (sets associativity : Nat) : policy_call → Prop
  | policy_call.on_access cs set_idx _ =>
    cs.associativity = associativity ∧ cs.cache_lines.length = sets * associativity ∧
      set_idx < sets
  | policy_call.select_victim _ _ _ _ cs set_idx =>
    cs.associativity = associativity ∧ cs.cache_lines.length = sets * associativity ∧
      set_idx < sets

/-- Invariant of the table of timestamps: every entry is at most the clock, and
a timestamp held at two different positions is 0. -/
def stamps_inv (d : lru_data) : Prop :=
  (∀ (i t : Nat), d.access_times[i]? = some t → t ≤ d.current_time) ∧
  (∀ (i j t : Nat), i ≠ j → d.access_times[i]? = some t → d.access_times[j]? = some t →
    t = 0)

/-- The positions taken by the loop variable `i` of
`for (i = set_idx * associativity; i < (set_idx+1) * associativity; i++)`. -/
def loop_indices (cs : cache_system) (set_idx : Nat) : List Nat :=
  List.range' (set_begin cs set_idx) (set_end cs set_idx - set_begin cs set_idx)

/-! ## Scans with the positions they visit

The same loops and functions once more, each returning in addition the list of
the values of the loop variable `i` for which the loop body ran, in the order
of the run (a body that reads or writes outside an array is the last one). -/

/-- Records that the loop body ran at position `i` before the rest of the
scan. -/
def visit {α : Type} (i : Nat) (rest : List Nat × α) : List Nat × α :=
  (i :: rest.1, rest.2)

/-- The loop of `lru_cache_access` with the positions it visits. -/
def lru_cache_access_loop_visits (lines : List cache_line) (tag now : Nat) :
    Nat → Nat → List Nat → List Nat × Option (List Nat)
  | 0, _, times => ([], some times)
  | n + 1, i, times =>
    match lines[i]? with
    | none => ([i], none)
    | some line =>
      if line.tag = tag then
        if i < times.length then ([i], some (times.set i now)) else ([i], none)
      else visit i (lru_cache_access_loop_visits lines tag now n (i + 1) times)

/-- The function `lru_cache_access` with the positions its loop visits. -/
def lru_cache_access_visits (data : lru_data) (cs : cache_system) (set_idx tag : Nat) :
    List Nat × Option lru_data :=
  let current_time := (data.current_time + 1) % UINT32_RANGE
  match lru_cache_access_loop_visits cs.cache_lines tag current_time
      (set_end cs set_idx - set_begin cs set_idx) (set_begin cs set_idx)
      data.access_times with
  | (visited, none) => (visited, none)
  | (visited, some times) =>
    (visited,
      some { num_lines := data.num_lines, current_time := current_time, access_times := times })

/-- The loop of `lru_eviction_index` with the positions it visits. -/
def lru_eviction_loop_visits (times : List Nat) :
    Nat → Nat → scan_state → List Nat × Option scan_state
  | 0, _, st => ([], some st)
  | n + 1, i, st =>
    match times[i]? with
    | none => ([i], none)
    | some t =>
      if t < st.min_time || !st.min_time_set then
        visit i (lru_eviction_loop_visits times n (i + 1)
          { min_time_set := true, min_time := t, index := i })
      else visit i (lru_eviction_loop_visits times n (i + 1) st)

/-- The function `lru_eviction_index` with the positions its loop visits. -/
def lru_eviction_index_visits (index0 min_time0 : Nat) (data : lru_data) (cs : cache_system)
    (set_idx : Nat) : List Nat × Option Nat :=
  match lru_eviction_loop_visits data.access_times
      (set_end cs set_idx - set_begin cs set_idx) (set_begin cs set_idx)
      { min_time_set := false, min_time := min_time0, index := index0 } with
  | (visited, none) => (visited, none)
  | (visited, some st) =>
    (visited, if cs.associativity = 0 then none else some (st.index % cs.associativity))

/-- The loop of `lru_prefer_clean_eviction_index` with the positions it
visits. -/
def lru_prefer_clean_eviction_loop_visits (lines : List cache_line) (times : List Nat) :
    Nat → Nat → scan_state → List Nat × Option scan_state
  | 0, _, st => ([], some st)
  | n + 1, i, st =>
    match lines[i]? with
    | none => ([i], none)
    | some line =>
      if line.status ≠ MODIFIED then
        match times[i]? with
        | none => ([i], none)
        | some t =>
          if t < st.min_time || !st.min_time_set then
            visit i (lru_prefer_clean_eviction_loop_visits lines times n (i + 1)
              { min_time_set := true, min_time := t, index := i })
          else visit i (lru_prefer_clean_eviction_loop_visits lines times n (i + 1) st)
      else visit i (lru_prefer_clean_eviction_loop_visits lines times n (i + 1) st)

/-- The function `lru_prefer_clean_eviction_index` with the positions its loop
visits, followed in the fallback by the positions the loop of the nested
`lru_eviction_index` visits. -/
def lru_prefer_clean_eviction_index_visits
    (index0 min_time0 lru_index0 lru_min_time0 : Nat)
    (data : lru_data) (cs : cache_system) (set_idx : Nat) : List Nat × Option Nat :=
  match lru_prefer_clean_eviction_loop_visits cs.cache_lines data.access_times
      (set_end cs set_idx - set_begin cs set_idx) (set_begin cs set_idx)
      { min_time_set := false, min_time := min_time0, index := index0 } with
  | (visited, none) => (visited, none)
  | (visited, some st) =>
    if !st.min_time_set then
      (visited ++ (lru_eviction_index_visits lru_index0 lru_min_time0 data cs set_idx).1,
        (lru_eviction_index_visits lru_index0 lru_min_time0 data cs set_idx).2)
    else if cs.associativity = 0 then (visited, none)
    else (visited, some (st.index % cs.associativity))

/-! ## Access sequences -/

/-- A sequence of `onAccess` calls `(set_idx, tag)` on a fixed cache, run from
left to right with `lru_cache_access`. -/
def run_accesses (cs : cache_system) : lru_data → List (Nat × Nat) → Option lru_data
  | data, [] => some data
  | data, (set_idx, tag) :: rest =>
    match lru_cache_access data cs set_idx tag with
    | none => none
    | some data' => run_accesses cs data' rest

/-- A sequence of `onAccess` calls `(set_idx, tag)` on a fixed cache, run from
left to right with `lru_prefer_clean_cache_access`. -/
def run_prefer_clean_accesses (cs : cache_system) :
    lru_data → List (Nat × Nat) → Option lru_data
  | data, [] => some data
  | data, (set_idx, tag) :: rest =>
    match lru_prefer_clean_cache_access data cs set_idx tag with
    | none => none
    | some data' => run_prefer_clean_accesses cs data' rest

/-! ## Specification-side notions -/

/-- Tag of the line at physical position `k` (positions outside the cache read
an INVALID line with tag 0; every use below is inside the cache). -/
def tag_at (lines : List cache_line) (k : Nat) : Nat :=
  (lines.getD k { tag := 0, status := INVALID }).tag

/-- Status of the line at physical position `k` (INVALID outside the cache;
every use below is inside the cache). -/
def status_at (lines : List cache_line) (k : Nat) : status :=
  (lines.getD k { tag := 0, status := INVALID }).status

/-- The stamp `T` is the 1-based position of the last occurrence of the call `x`
in the sequence of calls `p`, or 0 when `x` does not occur in `p`. -/
def last_stamp (p : List (Nat × Nat)) (x : Nat × Nat) (T : Nat) : Prop :=
  (T = 0 ∧ x ∉ p) ∨ (∃ q, T = q + 1 ∧ p[q]? = some x ∧ ∀ r, q < r → p[r]? ≠ some x)

/-- Invariant of a minimum scan over the positions `lo ≤ k < i` that satisfy
`cand`: a minimum has been recorded, it is the timestamp of the candidate
position `st.index`, no candidate seen so far has a smaller timestamp and every
candidate before `st.index` has a strictly larger one. -/
structure scan_min (times : List Nat) (cand : Nat → Prop) (lo i : Nat) (st : scan_state) :
    Prop where
  is_set : st.min_time_set = true
  lo_le : lo ≤ st.index
  lt_i : st.index < i
  cand_index : cand st.index
  time_eq : times[st.index]? = some st.min_time
  le_all : ∀ k t, lo ≤ k → k < i → cand k → times[k]? = some t → st.min_time ≤ t
  lt_before : ∀ k t, lo ≤ k → k < st.index → cand k → times[k]? = some t → st.min_time < t

/-- Position `k` of `lines` holds a line whose status is not MODIFIED. -/
def not_modified_at (lines : List cache_line) (k : Nat) : Prop :=
  ∃ line, lines[k]? = some line ∧ line.status ≠ MODIFIED

/-- Invariant of the scan of `lru_prefer_clean_eviction_index` over the
positions `lo ≤ k < i`: either no minimum has been recorded and every line seen
is MODIFIED, or `scan_min` holds for the lines that are not MODIFIED. -/
def prefer_clean_inv (lines : List cache_line) (times : List Nat) (lo i : Nat)
    (st : scan_state) : Prop :=
  (st.min_time_set = false ∧ ∀ k, lo ≤ k → k < i → ¬ not_modified_at lines k) ∨
  scan_min times (not_modified_at lines) lo i st

/-! ## Geometry -/

theorem set_bounds (cs : cache_system) (sets s : Nat) (hs : s < sets)
    (hgeo : sets * cs.associativity < UINT32_RANGE) :
    set_begin cs s = s * cs.associativity ∧
    set_end cs s - set_begin cs s = cs.associativity ∧
    s * cs.associativity + cs.associativity ≤ sets * cs.associativity := by
  have h1 : (s + 1) * cs.associativity ≤ sets * cs.associativity :=
    Nat.mul_le_mul_right _ hs
  have h2 : (s + 1) * cs.associativity = s * cs.associativity + cs.associativity := by ring
  have hb : set_begin cs s = s * cs.associativity := by
    unfold set_begin
    exact Nat.mod_eq_of_lt (by omega)
  refine ⟨hb, ?_, by omega⟩
  rcases Nat.eq_zero_or_pos cs.associativity with h0 | hpos
  · simp [set_begin, set_end, h0]
  · have h3 : sets ≤ sets * cs.associativity := Nat.le_mul_of_pos_right _ hpos
    have h4 : (s + 1) % UINT32_RANGE = s + 1 := Nat.mod_eq_of_lt (by omega)
    have he : set_end cs s = (s + 1) * cs.associativity := by
      unfold set_end
      rw [h4]
      exact Nat.mod_eq_of_lt (by omega)
    rw [he, hb]
    omega

theorem offset_mod (s a o : Nat) (ho : o < a) : (s * a + o) % a = o := by
  rw [Nat.mul_add_mod_of_lt ho]

/-! ## The LRU scan -/

theorem lru_eviction_loop_keeps (times : List Nat) (lo : Nat) :
    ∀ (n i : Nat) (st : scan_state), scan_min times (fun _ => True) lo i st →
      i + n ≤ times.length →
      ∃ st', lru_eviction_loop times n i st = some st' ∧
        scan_min times (fun _ => True) lo (i + n) st' := by
  intro n
  induction n with
  | zero => intro i st h _; exact ⟨st, rfl, h⟩
  | succ n ih =>
    intro i st h hlen
    have hi : i < times.length := by omega
    have hget : times[i]? = some times[i] := List.getElem?_eq_getElem hi
    have hlo : lo ≤ i := by have := h.lo_le; have := h.lt_i; omega
    simp only [lru_eviction_loop, hget, h.is_set, Bool.not_true, Bool.or_false,
      decide_eq_true_eq]
    have hn : i + 1 + n = i + (n + 1) := by omega
    by_cases hlt : times[i] < st.min_time
    · rw [if_pos hlt, ← hn]
      apply ih (i + 1) _ _ (by omega)
      refine ⟨rfl, hlo, Nat.lt_succ_self i, trivial, hget, ?_, ?_⟩
      · intro k t hk1 hk2 _ hkt
        rcases Nat.lt_succ_iff_lt_or_eq.mp hk2 with hk | hk
        · have := h.le_all k t hk1 hk trivial hkt
          show times[i] ≤ t
          omega
        · subst hk
          rw [hget] at hkt
          exact le_of_eq (Option.some.inj hkt)
      · intro k t hk1 hk2 _ hkt
        have := h.le_all k t hk1 hk2 trivial hkt
        show times[i] < t
        omega
    · rw [if_neg hlt, ← hn]
      apply ih (i + 1) _ _ (by omega)
      refine ⟨h.is_set, h.lo_le, Nat.lt_succ_of_lt h.lt_i, trivial, h.time_eq, ?_, h.lt_before⟩
      intro k t hk1 hk2 _ hkt
      rcases Nat.lt_succ_iff_lt_or_eq.mp hk2 with hk | hk
      · exact h.le_all k t hk1 hk trivial hkt
      · subst hk
        rw [hget] at hkt
        have := Option.some.inj hkt
        omega

theorem lru_eviction_loop_first (times : List Nat) (n lo index0 min_time0 : Nat)
    (hn : 1 ≤ n) (hlen : lo + n ≤ times.length) :
    ∃ st', lru_eviction_loop times n lo
        { min_time_set := false, min_time := min_time0, index := index0 } = some st' ∧
      scan_min times (fun _ => True) lo (lo + n) st' := by
  cases n with
  | zero => omega
  | succ n =>
    have hi : lo < times.length := by omega
    have hget : times[lo]? = some times[lo] := List.getElem?_eq_getElem hi
    have hn : lo + 1 + n = lo + (n + 1) := by omega
    simp only [lru_eviction_loop, hget, Bool.not_false, Bool.or_true, if_true]
    rw [← hn]
    apply lru_eviction_loop_keeps times lo n (lo + 1) _ _ (by omega)
    refine ⟨rfl, le_refl _, Nat.lt_succ_self _, trivial, hget, ?_, ?_⟩
    · intro k t hk1 hk2 _ hkt
      have hk : k = lo := by omega
      subst hk
      rw [hget] at hkt
      exact le_of_eq (Option.some.inj hkt)
    · intro k t hk1 hk2
      exact absurd hk2 (by simp only [not_lt]; exact hk1)

/-- The victim of `lru_eviction_index` in terms of table lookups: the offset
`o` is in range, it holds a minimum timestamp of the set, and every lower
offset holds a strictly larger one. -/
theorem lru_eviction_index_spec (index0 min_time0 sets s : Nat) (d : lru_data)
    (cs : cache_system) (ha : 1 ≤ cs.associativity) (hs : s < sets)
    (hgeo : sets * cs.associativity < UINT32_RANGE)
    (hlen : d.access_times.length = sets * cs.associativity) :
    ∃ o t, lru_eviction_index index0 min_time0 d cs s = some o ∧ o < cs.associativity ∧
      d.access_times[s * cs.associativity + o]? = some t ∧
      (∀ j u, j < cs.associativity →
        d.access_times[s * cs.associativity + j]? = some u → t ≤ u) ∧
      (∀ j u, j < o → d.access_times[s * cs.associativity + j]? = some u → t < u) := by
  obtain ⟨hb, hn, hle⟩ := set_bounds cs sets s hs hgeo
  obtain ⟨st, hst, hinv⟩ := lru_eviction_loop_first d.access_times cs.associativity
    (s * cs.associativity) index0 min_time0 ha (by omega)
  have hlo := hinv.lo_le
  have hhi := hinv.lt_i
  obtain ⟨o, ho⟩ : ∃ o, st.index = s * cs.associativity + o :=
    ⟨st.index - s * cs.associativity, by omega⟩
  have hoa : o < cs.associativity := by omega
  refine ⟨o, st.min_time, ?_, hoa, ?_, ?_, ?_⟩
  · unfold lru_eviction_index
    rw [hn, hb, hst]
    have hne : ¬ (cs.associativity = 0) := by omega
    simp only [if_neg hne]
    rw [ho, offset_mod s cs.associativity o hoa]
  · rw [← ho]; exact hinv.time_eq
  · intro j u hj hu
    exact hinv.le_all _ u (by omega) (by omega) trivial hu
  · intro j u hj hu
    exact hinv.lt_before _ u (by omega) (by omega) trivial hu

/-- The offset returned by `lru_eviction_index` does not depend on the
indeterminate initial values of its locals. -/
theorem lru_eviction_index_initial_values (index0 min_time0 index1 min_time1 sets s : Nat)
    (d : lru_data) (cs : cache_system) (ha : 1 ≤ cs.associativity) (hs : s < sets)
    (hgeo : sets * cs.associativity < UINT32_RANGE)
    (hlen : d.access_times.length = sets * cs.associativity) :
    lru_eviction_index index0 min_time0 d cs s = lru_eviction_index index1 min_time1 d cs s := by
  obtain ⟨o, t, hres, ho, ht, hmin, hlow⟩ :=
    lru_eviction_index_spec index0 min_time0 sets s d cs ha hs hgeo hlen
  obtain ⟨o', t', hres', ho', ht', hmin', hlow'⟩ :=
    lru_eviction_index_spec index1 min_time1 sets s d cs ha hs hgeo hlen
  rw [hres, hres']
  congr 1
  rcases Nat.lt_trichotomy o o' with h | h | h
  · have h1 := hlow' o t h ht
    have h2 := hmin o' t' ho' ht'
    omega
  · exact h
  · have h1 := hlow o' t' h ht'
    have h2 := hmin' o t ho ht
    omega

/-! ## The LRU_PREFER_CLEAN scan -/

theorem lru_prefer_clean_eviction_loop_keeps (lines : List cache_line) (times : List Nat)
    (lo : Nat) :
    ∀ (n i : Nat) (st : scan_state), lo ≤ i → prefer_clean_inv lines times lo i st →
      i + n ≤ times.length → i + n ≤ lines.length →
      ∃ st', lru_prefer_clean_eviction_loop lines times n i st = some st' ∧
        prefer_clean_inv lines times lo (i + n) st' := by
  intro n
  induction n with
  | zero => intro i st _ h _ _; exact ⟨st, rfl, h⟩
  | succ n ih =>
    intro i st hlo h hlen hlen2
    have hi : i < times.length := by omega
    have hi2 : i < lines.length := by omega
    have hget : times[i]? = some times[i] := List.getElem?_eq_getElem hi
    have hget2 : lines[i]? = some lines[i] := List.getElem?_eq_getElem hi2
    have hn : i + 1 + n = i + (n + 1) := by omega
    rw [lru_prefer_clean_eviction_loop]
    simp only [hget2]
    by_cases hmod : lines[i].status = MODIFIED
    · -- a MODIFIED line is skipped
      have hskip : ¬ (lines[i].status ≠ MODIFIED) := fun hne => hne hmod
      rw [if_neg hskip, ← hn]
      apply ih (i + 1) st (by omega) _ (by omega) (by omega)
      have hnot : ¬ not_modified_at lines i := by
        rintro ⟨line, hl, hne⟩
        rw [hget2] at hl
        exact hne (Option.some.inj hl ▸ hmod)
      rcases h with ⟨hunset, hall⟩ | h
      · left
        refine ⟨hunset, ?_⟩
        intro k hk1 hk2
        rcases Nat.lt_succ_iff_lt_or_eq.mp hk2 with hk | hk
        · exact hall k hk1 hk
        · subst hk; exact hnot
      · right
        refine ⟨h.is_set, h.lo_le, Nat.lt_succ_of_lt h.lt_i, h.cand_index, h.time_eq, ?_,
          h.lt_before⟩
        intro k t hk1 hk2 hc hkt
        rcases Nat.lt_succ_iff_lt_or_eq.mp hk2 with hk | hk
        · exact h.le_all k t hk1 hk hc hkt
        · subst hk; exact absurd hc hnot
    · -- a line that is not MODIFIED is compared with the running minimum
      have hcand : not_modified_at lines i := ⟨lines[i], hget2, hmod⟩
      rw [if_pos hmod]
      simp only [hget]
      have hnew : prefer_clean_inv lines times lo (i + 1)
          { min_time_set := true, min_time := times[i], index := i } →
          ∃ st', lru_prefer_clean_eviction_loop lines times n (i + 1)
            { min_time_set := true, min_time := times[i], index := i } = some st' ∧
            prefer_clean_inv lines times lo (i + (n + 1)) st' := by
        intro hinv
        rw [← hn]
        exact ih (i + 1) _ (by omega) hinv (by omega) (by omega)
      rcases h with ⟨hunset, hall⟩ | h
      · simp only [hunset, Bool.not_false, Bool.or_true, if_true]
        apply hnew
        right
        refine ⟨rfl, hlo, Nat.lt_succ_self i, hcand, hget, ?_, ?_⟩
        · intro k t hk1 hk2 hc hkt
          rcases Nat.lt_succ_iff_lt_or_eq.mp hk2 with hk | hk
          · exact absurd hc (hall k hk1 hk)
          · subst hk
            rw [hget] at hkt
            exact le_of_eq (Option.some.inj hkt)
        · intro k t hk1 hk2 hc _
          exact absurd hc (hall k hk1 hk2)
      · simp only [h.is_set, Bool.not_true, Bool.or_false, decide_eq_true_eq]
        by_cases hlt : times[i] < st.min_time
        · rw [if_pos hlt]
          apply hnew
          right
          refine ⟨rfl, hlo, Nat.lt_succ_self i, hcand, hget, ?_, ?_⟩
          · intro k t hk1 hk2 hc hkt
            rcases Nat.lt_succ_iff_lt_or_eq.mp hk2 with hk | hk
            · have := h.le_all k t hk1 hk hc hkt
              show times[i] ≤ t
              omega
            · subst hk
              rw [hget] at hkt
              exact le_of_eq (Option.some.inj hkt)
          · intro k t hk1 hk2 hc hkt
            have := h.le_all k t hk1 hk2 hc hkt
            show times[i] < t
            omega
        · rw [if_neg hlt, ← hn]
          apply ih (i + 1) st (by omega) _ (by omega) (by omega)
          right
          refine ⟨h.is_set, h.lo_le, Nat.lt_succ_of_lt h.lt_i, h.cand_index, h.time_eq, ?_,
            h.lt_before⟩
          intro k t hk1 hk2 hc hkt
          rcases Nat.lt_succ_iff_lt_or_eq.mp hk2 with hk | hk
          · exact h.le_all k t hk1 hk hc hkt
          · subst hk
            rw [hget] at hkt
            have := Option.some.inj hkt
            omega

/-- The scan of `lru_prefer_clean_eviction_index` over a whole set, from the
initial state of the locals. -/
theorem lru_prefer_clean_eviction_loop_set (index0 min_time0 sets s : Nat) (d : lru_data)
    (cs : cache_system) (hs : s < sets)
    (hgeo : sets * cs.associativity < UINT32_RANGE)
    (hlen : d.access_times.length = sets * cs.associativity)
    (hlines : cs.cache_lines.length = sets * cs.associativity) :
    ∃ st, lru_prefer_clean_eviction_loop cs.cache_lines d.access_times
        (set_end cs s - set_begin cs s) (set_begin cs s)
        { min_time_set := false, min_time := min_time0, index := index0 } = some st ∧
      prefer_clean_inv cs.cache_lines d.access_times (s * cs.associativity)
        (s * cs.associativity + cs.associativity) st := by
  obtain ⟨hb, hn, hle⟩ := set_bounds cs sets s hs hgeo
  rw [hn, hb]
  apply lru_prefer_clean_eviction_loop_keeps cs.cache_lines d.access_times
    (s * cs.associativity) cs.associativity (s * cs.associativity) _ (le_refl _) _
    (by omega) (by omega)
  left
  exact ⟨rfl, fun k hk1 hk2 => absurd hk2 (by omega)⟩

/-- The victim of `lru_prefer_clean_eviction_index` when the set holds a line
that is not MODIFIED, in terms of table lookups. -/
theorem lru_prefer_clean_eviction_index_spec
    (index0 min_time0 lru_index0 lru_min_time0 sets s : Nat) (d : lru_data)
    (cs : cache_system) (hs : s < sets)
    (hgeo : sets * cs.associativity < UINT32_RANGE)
    (hlen : d.access_times.length = sets * cs.associativity)
    (hlines : cs.cache_lines.length = sets * cs.associativity)
    (hclean : ∃ j, j < cs.associativity ∧
      not_modified_at cs.cache_lines (s * cs.associativity + j)) :
    ∃ o t, lru_prefer_clean_eviction_index index0 min_time0 lru_index0 lru_min_time0 d cs s
        = some o ∧ o < cs.associativity ∧
      not_modified_at cs.cache_lines (s * cs.associativity + o) ∧
      d.access_times[s * cs.associativity + o]? = some t ∧
      (∀ j u, j < cs.associativity → not_modified_at cs.cache_lines (s * cs.associativity + j) →
        d.access_times[s * cs.associativity + j]? = some u → t ≤ u) ∧
      (∀ j u, j < o → not_modified_at cs.cache_lines (s * cs.associativity + j) →
        d.access_times[s * cs.associativity + j]? = some u → t < u) := by
  obtain ⟨st, hst, hinv⟩ :=
    lru_prefer_clean_eviction_loop_set index0 min_time0 sets s d cs hs hgeo hlen hlines
  obtain ⟨j0, hj0, hc0⟩ := hclean
  rcases hinv with ⟨_, hall⟩ | hinv
  · exact absurd hc0 (hall _ (by omega) (by omega))
  · have hlo := hinv.lo_le
    have hhi := hinv.lt_i
    obtain ⟨o, ho⟩ : ∃ o, st.index = s * cs.associativity + o :=
      ⟨st.index - s * cs.associativity, by omega⟩
    have hoa : o < cs.associativity := by omega
    refine ⟨o, st.min_time, ?_, hoa, ?_, ?_, ?_, ?_⟩
    · unfold lru_prefer_clean_eviction_index
      rw [hst]
      have hne : ¬ (cs.associativity = 0) := by omega
      simp only [hinv.is_set, Bool.not_true, if_neg hne, Bool.false_eq_true, if_false]
      rw [ho, offset_mod s cs.associativity o hoa]
    · rw [← ho]; exact hinv.cand_index
    · rw [← ho]; exact hinv.time_eq
    · intro j u hj hc hu
      exact hinv.le_all _ u (by omega) (by omega) hc hu
    · intro j u hj hc hu
      exact hinv.lt_before _ u (by omega) (by omega) hc hu

/-- The fallback of `lru_prefer_clean_eviction_index`: when every line of the
set is MODIFIED the result is the one of the nested `lru_eviction_index`. -/
theorem lru_prefer_clean_eviction_index_fallback
    (index0 min_time0 lru_index0 lru_min_time0 sets s : Nat) (d : lru_data)
    (cs : cache_system) (hs : s < sets)
    (hgeo : sets * cs.associativity < UINT32_RANGE)
    (hlen : d.access_times.length = sets * cs.associativity)
    (hlines : cs.cache_lines.length = sets * cs.associativity)
    (hdirty : ∀ j, j < cs.associativity →
      ¬ not_modified_at cs.cache_lines (s * cs.associativity + j)) :
    lru_prefer_clean_eviction_index index0 min_time0 lru_index0 lru_min_time0 d cs s =
      lru_eviction_index lru_index0 lru_min_time0 d cs s := by
  obtain ⟨st, hst, hinv⟩ :=
    lru_prefer_clean_eviction_loop_set index0 min_time0 sets s d cs hs hgeo hlen hlines
  have hunset : st.min_time_set = false := by
    rcases hinv with ⟨h, _⟩ | hinv
    · exact h
    · have hlo := hinv.lo_le
      have hhi := hinv.lt_i
      have hc := hinv.cand_index
      have heq : st.index = s * cs.associativity + (st.index - s * cs.associativity) := by
        omega
      rw [heq] at hc
      exact absurd hc (hdirty _ (by omega))
  unfold lru_prefer_clean_eviction_index
  rw [hst]
  simp only [hunset, Bool.not_false, if_true]

theorem not_modified_at_iff (lines : List cache_line) (k : Nat) (hk : k < lines.length) :
    not_modified_at lines k ↔ status_at lines k ≠ MODIFIED := by
  have hget : lines[k]? = some lines[k] := List.getElem?_eq_getElem hk
  have hst : status_at lines k = lines[k].status := by
    simp [status_at, List.getD_eq_getElem?_getD, hget]
  rw [hst]
  constructor
  · rintro ⟨line, hl, hne⟩
    rw [hget] at hl
    exact Option.some.inj hl ▸ hne
  · intro hne
    exact ⟨lines[k], hget, hne⟩

theorem tag_at_eq (lines : List cache_line) (k : Nat) (hk : k < lines.length) :
    tag_at lines k = lines[k].tag := by
  simp [tag_at, List.getD_eq_getElem?_getD, List.getElem?_eq_getElem hk]

/-! ## The access scan -/

/-- The loop of `lru_cache_access` either finds no line with the tag and
leaves the table as it is, or writes `now` at the first position whose tag
matches. -/
theorem lru_cache_access_loop_spec (lines : List cache_line) (tag now : Nat)
    (times : List Nat) :
    ∀ (n i : Nat), i + n ≤ lines.length → i + n ≤ times.length →
      ((∀ k, i ≤ k → k < i + n → tag_at lines k ≠ tag) ∧
        lru_cache_access_loop lines tag now n i times = some times) ∨
      (∃ k, i ≤ k ∧ k < i + n ∧ tag_at lines k = tag ∧
        (∀ k', i ≤ k' → k' < k → tag_at lines k' ≠ tag) ∧
        lru_cache_access_loop lines tag now n i times = some (times.set k now)) := by
  intro n
  induction n with
  | zero =>
    intro i _ _
    left
    exact ⟨fun k hk1 hk2 => absurd hk2 (by omega), rfl⟩
  | succ n ih =>
    intro i hlines hlen
    have hi : i < lines.length := by omega
    have hget : lines[i]? = some lines[i] := List.getElem?_eq_getElem hi
    have htag := tag_at_eq lines i hi
    rw [lru_cache_access_loop]
    simp only [hget]
    by_cases hmatch : lines[i].tag = tag
    · right
      have hit : i < times.length := by omega
      rw [if_pos hmatch, if_pos hit]
      exact ⟨i, le_refl _, by omega, htag.trans hmatch,
        fun k' hk1 hk2 => absurd hk2 (by omega), rfl⟩
    · rw [if_neg hmatch]
      rcases ih (i + 1) (by omega) (by omega) with ⟨hall, hres⟩ | ⟨k, hk1, hk2, hk3, hk4, hres⟩
      · left
        refine ⟨?_, hres⟩
        intro k hk1 hk2
        rcases Nat.eq_or_lt_of_le hk1 with hk | hk
        · subst hk; rw [htag]; exact hmatch
        · exact hall k hk (by omega)
      · right
        refine ⟨k, by omega, by omega, hk3, ?_, hres⟩
        intro k' hk1' hk2'
        rcases Nat.eq_or_lt_of_le hk1' with hk | hk
        · subst hk; rw [htag]; exact hmatch
        · exact hk4 k' hk hk2'

/-- The effect of `lru_cache_access` on a valid set: the call returns, the
clock is incremented in 32-bit arithmetic, and the table is unchanged on a miss
or updated at the first matching line of the set on a hit. -/
theorem lru_cache_access_spec (sets s t : Nat) (d : lru_data) (cs : cache_system)
    (hs : s < sets) (hgeo : sets * cs.associativity < UINT32_RANGE)
    (hlen : d.access_times.length = sets * cs.associativity)
    (hlines : cs.cache_lines.length = sets * cs.associativity) :
    ∃ d', lru_cache_access d cs s t = some d' ∧
      d'.current_time = (d.current_time + 1) % UINT32_RANGE ∧
      d'.num_lines = d.num_lines ∧
      (((∀ j, j < cs.associativity → tag_at cs.cache_lines (s * cs.associativity + j) ≠ t) ∧
          d'.access_times = d.access_times) ∨
        (∃ o, o < cs.associativity ∧ tag_at cs.cache_lines (s * cs.associativity + o) = t ∧
          (∀ j, j < o → tag_at cs.cache_lines (s * cs.associativity + j) ≠ t) ∧
          d'.access_times =
            d.access_times.set (s * cs.associativity + o)
              ((d.current_time + 1) % UINT32_RANGE))) := by
  obtain ⟨hb, hn, hle⟩ := set_bounds cs sets s hs hgeo
  unfold lru_cache_access
  simp only [hn]
  rw [hb]
  rcases lru_cache_access_loop_spec cs.cache_lines t ((d.current_time + 1) % UINT32_RANGE)
      d.access_times cs.associativity (s * cs.associativity) (by omega) (by omega)
    with ⟨hall, hres⟩ | ⟨k, hk1, hk2, hk3, hk4, hres⟩
  · rw [hres]
    refine ⟨_, rfl, rfl, rfl, Or.inl ⟨?_, rfl⟩⟩
    intro j hj
    exact hall _ (by omega) (by omega)
  · rw [hres]
    obtain ⟨o, rfl⟩ : ∃ o, k = s * cs.associativity + o := ⟨k - s * cs.associativity, by omega⟩
    refine ⟨_, rfl, rfl, rfl, Or.inr ⟨o, by omega, hk3, ?_, rfl⟩⟩
    intro j hj
    exact hk4 _ (by omega) (by omega)

/-! ## Access sequences -/

theorem set_position_inj (a s s' o j : Nat) (ho : o < a) (hj : j < a)
    (h : s' * a + o = s * a + j) : s' = s ∧ o = j := by
  have h1 := offset_mod s' a o ho
  have h2 := offset_mod s a j hj
  rw [h, h2] at h1
  subst h1
  have h3 : s' * a = s * a := by omega
  exact ⟨Nat.eq_of_mul_eq_mul_right (by omega) h3, rfl⟩

theorem last_stamp_snoc_same (p : List (Nat × Nat)) (x : Nat × Nat) :
    last_stamp (p ++ [x]) x (p.length + 1) := by
  right
  refine ⟨p.length, rfl, List.getElem?_concat_length p x, ?_⟩
  intro r hr
  rw [List.getElem?_eq_none (by simp; omega)]
  simp

theorem last_stamp_snoc_other (p : List (Nat × Nat)) (x y : Nat × Nat) (T : Nat)
    (hne : y ≠ x) (h : last_stamp p x T) : last_stamp (p ++ [y]) x T := by
  rcases h with ⟨h0, hmem⟩ | ⟨q, hq, hget, hlast⟩
  · left
    refine ⟨h0, ?_⟩
    simp only [List.mem_append, List.mem_singleton, not_or]
    exact ⟨hmem, Ne.symm hne⟩
  · right
    have hql : q < p.length := (List.getElem?_eq_some.mp hget).1
    refine ⟨q, hq, ?_, ?_⟩
    · rw [List.getElem?_append_left hql]; exact hget
    · intro r hr
      rcases Nat.lt_trichotomy r p.length with hlt | heq | hgt
      · rw [List.getElem?_append_left hlt]; exact hlast r hr
      · rw [heq, List.getElem?_concat_length]
        intro hc
        exact hne (Option.some.inj hc)
      · rw [List.getElem?_eq_none (by simp; omega)]
        simp

theorem run_accesses_snoc (cs : cache_system) (p : List (Nat × Nat)) (y : Nat × Nat) :
    ∀ d d', run_accesses cs d p = some d' →
      run_accesses cs d (p ++ [y]) = lru_cache_access d' cs y.1 y.2 := by
  induction p with
  | nil =>
    intro d d' h
    obtain rfl := Option.some.inj h
    obtain ⟨y1, y2⟩ := y
    simp only [List.nil_append, run_accesses]
    cases lru_cache_access d cs y1 y2 <;> rfl
  | cons x p ih =>
    intro d d' h
    obtain ⟨x1, x2⟩ := x
    simp only [List.cons_append, run_accesses] at h ⊢
    cases hx : lru_cache_access d cs x1 x2 with
    | none => rw [hx] at h; exact absurd h (by simp)
    | some d1 =>
      rw [hx] at h
      exact ih d1 d' h

/-- Invariant of a run of accesses from a freshly constructed policy: the run
returns, the clock counts the calls, the table keeps its length, and every line
of a set with pairwise distinct tags holds the position of the last call for
its tag (0 when there is none). -/
theorem run_accesses_stamps (sets s : Nat) (cs : cache_system) (hs : s < sets)
    (hgeo : sets * cs.associativity < UINT32_RANGE)
    (hlines : cs.cache_lines.length = sets * cs.associativity)
    (hdistinct : ∀ i, i < cs.associativity → ∀ j, j < cs.associativity →
      tag_at cs.cache_lines (s * cs.associativity + i) =
        tag_at cs.cache_lines (s * cs.associativity + j) → i = j)
    (acc : List (Nat × Nat)) :
    acc.length < UINT32_RANGE → (∀ x ∈ acc, x.1 < sets) →
    ∃ d, run_accesses cs (lru_replacement_policy_new sets cs.associativity) acc = some d ∧
      d.current_time = acc.length ∧
      d.access_times.length = sets * cs.associativity ∧
      ∀ j, j < cs.associativity →
        last_stamp acc (s, tag_at cs.cache_lines (s * cs.associativity + j))
          (d.access_times.getD (s * cs.associativity + j) 0) := by
  obtain ⟨_, _, hle⟩ := set_bounds cs sets s hs hgeo
  induction acc using List.reverseRecOn with
  | nil =>
    intro _ _
    refine ⟨_, rfl, rfl, ?_, ?_⟩
    · simp [lru_replacement_policy_new, Nat.mod_eq_of_lt hgeo]
    · intro j hj
      left
      constructor
      · simp only [lru_replacement_policy_new, List.getD_eq_getElem?_getD,
          List.getElem?_replicate]
        split <;> rfl
      · simp
  | append_singleton p y ih =>
    intro hcount hvalid
    have hp : p.length + 1 < UINT32_RANGE := by
      simpa using hcount
    obtain ⟨d, hrun, hclock, hlen, hstamps⟩ := ih (by omega)
      (fun x hx => hvalid x (List.mem_append_left _ hx))
    have hy : y.1 < sets := hvalid y (by simp)
    obtain ⟨d', hres, hclock', _, hcase⟩ :=
      lru_cache_access_spec sets y.1 y.2 d cs hy hgeo hlen hlines
    have hnow : (d.current_time + 1) % UINT32_RANGE = p.length + 1 := by
      rw [hclock]; exact Nat.mod_eq_of_lt hp
    rw [hnow] at hclock'
    rw [hnow] at hcase
    refine ⟨d', ?_, ?_, ?_, ?_⟩
    · rw [run_accesses_snoc cs p y _ d hrun]; exact hres
    · rw [hclock']; simp
    · rcases hcase with ⟨_, h⟩ | ⟨o, _, _, _, h⟩
      · rw [h]; exact hlen
      · rw [h, List.length_set]; exact hlen
    · intro j hj
      rcases hcase with ⟨hall, h⟩ | ⟨o, ho, htag, _, h⟩
      · rw [h]
        apply last_stamp_snoc_other _ _ _ _ _ (hstamps j hj)
        intro hc
        have h1 : y.1 = s := congrArg Prod.fst hc
        have h2 : y.2 = tag_at cs.cache_lines (s * cs.associativity + j) :=
          congrArg Prod.snd hc
        rw [h1] at hall
        exact hall j hj h2.symm
      · by_cases hsame : y.1 * cs.associativity + o = s * cs.associativity + j
        · obtain ⟨h1, h2⟩ := set_position_inj cs.associativity s y.1 o j ho hj hsame
          have hin : s * cs.associativity + j < d.access_times.length := by omega
          have hx : (s, tag_at cs.cache_lines (s * cs.associativity + j)) = y := by
            rw [← hsame, htag, ← h1]
          rw [h, hsame, List.getD_eq_getElem?_getD, List.getElem?_set_self hin, hx]
          exact last_stamp_snoc_same p y
        · rw [h, List.getD_eq_getElem?_getD, List.getElem?_set_ne hsame,
            ← List.getD_eq_getElem?_getD]
          apply last_stamp_snoc_other _ _ _ _ _ (hstamps j hj)
          intro hc
          have h1 : y.1 = s := congrArg Prod.fst hc
          have h2 : y.2 = tag_at cs.cache_lines (s * cs.associativity + j) :=
            congrArg Prod.snd hc
          have hoj : o = j := by
            apply hdistinct o ho j hj
            have htag' := htag
            rw [h1] at htag'
            rw [htag', h2]
          exact hsame (by rw [h1, hoj])

theorem getElem?_of_getD (times : List Nat) (k : Nat) (hk : k < times.length) :
    times[k]? = some (times.getD k 0) := by
  rw [List.getD_eq_getElem?_getD, List.getElem?_eq_getElem hk]
  rfl

/-! ## Claims -/

/-- C1: for every LRU state whose table covers the geometry, every
associativity at least 1 and every set index below the number of sets (with
sets * associativity below 2^32), `lru_eviction_index` returns an offset of the
set whose timestamp is at most the timestamp of every line of the set, whatever
the indeterminate initial values of its locals are. -/
theorem lru_eviction_index_minimum (index0 min_time0 sets s : Nat) (d : lru_data)
    (cs : cache_system) (ha : 1 ≤ cs.associativity) (hs : s < sets)
    (hgeo : sets * cs.associativity < UINT32_RANGE)
    (hlen : d.access_times.length = sets * cs.associativity) :
    ∃ o, lru_eviction_index index0 min_time0 d cs s = some o ∧ o < cs.associativity ∧
      ∀ j, j < cs.associativity →
        d.access_times.getD (s * cs.associativity + o) 0 ≤
          d.access_times.getD (s * cs.associativity + j) 0 := by
  obtain ⟨o, t, hres, ho, ht, hmin, _⟩ :=
    lru_eviction_index_spec index0 min_time0 sets s d cs ha hs hgeo hlen
  obtain ⟨_, _, hle⟩ := set_bounds cs sets s hs hgeo
  refine ⟨o, hres, ho, ?_⟩
  intro j hj
  have h1 := getElem?_of_getD d.access_times (s * cs.associativity + o) (by omega)
  have h2 := getElem?_of_getD d.access_times (s * cs.associativity + j) (by omega)
  rw [ht] at h1
  obtain rfl := Option.some.inj h1
  exact hmin j _ hj h2

/-- Witness of C1: one set of four lines with timestamps 5, 2, 3, 4. -/
theorem lru_eviction_index_minimum_witness :
    (1 ≤ 4 ∧ 0 < 1 ∧ 1 * 4 < UINT32_RANGE ∧ [5, 2, 3, 4].length = 1 * 4) ∧
    ∃ o, lru_eviction_index 7 9 ⟨4, 5, [5, 2, 3, 4]⟩ ⟨4, []⟩ 0 = some o ∧ o < 4 ∧
      ∀ j, j < 4 → [5, 2, 3, 4].getD (0 * 4 + o) 0 ≤ [5, 2, 3, 4].getD (0 * 4 + j) 0 :=
  ⟨by decide, lru_eviction_index_minimum 7 9 1 0 ⟨4, 5, [5, 2, 3, 4]⟩ ⟨4, []⟩ (by decide)
    (by decide) (by decide) (by decide)⟩

/-- C2: among the lines of the set that share the minimum timestamp,
`lru_eviction_index` returns the lowest offset (every lower offset holds a
strictly larger timestamp); when all timestamps of the set are equal it returns
offset 0, and so it does on a freshly constructed policy. -/
theorem lru_eviction_index_tie_break (index0 min_time0 sets s : Nat) (d : lru_data)
    (cs : cache_system) (ha : 1 ≤ cs.associativity) (hs : s < sets)
    (hgeo : sets * cs.associativity < UINT32_RANGE)
    (hlen : d.access_times.length = sets * cs.associativity) :
    (∃ o, lru_eviction_index index0 min_time0 d cs s = some o ∧ o < cs.associativity ∧
      (∀ j, j < cs.associativity →
        d.access_times.getD (s * cs.associativity + o) 0 ≤
          d.access_times.getD (s * cs.associativity + j) 0) ∧
      (∀ j, j < o →
        d.access_times.getD (s * cs.associativity + o) 0 <
          d.access_times.getD (s * cs.associativity + j) 0)) ∧
    ((∀ j, j < cs.associativity →
        d.access_times.getD (s * cs.associativity + j) 0 =
          d.access_times.getD (s * cs.associativity) 0) →
      lru_eviction_index index0 min_time0 d cs s = some 0) ∧
    lru_eviction_index index0 min_time0 (lru_replacement_policy_new sets cs.associativity)
      cs s = some 0 := by
  obtain ⟨_, _, hle⟩ := set_bounds cs sets s hs hgeo
  have key : ∀ d' : lru_data, d'.access_times.length = sets * cs.associativity →
      ∃ o, lru_eviction_index index0 min_time0 d' cs s = some o ∧ o < cs.associativity ∧
      (∀ j, j < cs.associativity →
        d'.access_times.getD (s * cs.associativity + o) 0 ≤
          d'.access_times.getD (s * cs.associativity + j) 0) ∧
      (∀ j, j < o →
        d'.access_times.getD (s * cs.associativity + o) 0 <
          d'.access_times.getD (s * cs.associativity + j) 0) := by
    intro d' hlen'
    obtain ⟨o, t, hres, ho, ht, hmin, hlow⟩ :=
      lru_eviction_index_spec index0 min_time0 sets s d' cs ha hs hgeo hlen'
    have h1 := getElem?_of_getD d'.access_times (s * cs.associativity + o) (by omega)
    rw [ht] at h1
    obtain rfl := Option.some.inj h1
    exact ⟨o, hres, ho,
      fun j hj => hmin j _ hj (getElem?_of_getD _ _ (by omega)),
      fun j hj => hlow j _ hj (getElem?_of_getD _ _ (by omega))⟩
  have zero : ∀ d' : lru_data, d'.access_times.length = sets * cs.associativity →
      (∀ j, j < cs.associativity →
        d'.access_times.getD (s * cs.associativity + j) 0 =
          d'.access_times.getD (s * cs.associativity) 0) →
      lru_eviction_index index0 min_time0 d' cs s = some 0 := by
    intro d' hlen' heq
    obtain ⟨o, hres, ho, _, hlow⟩ := key d' hlen'
    rcases Nat.eq_zero_or_pos o with h0 | hpos
    · rw [hres, h0]
    · have h1 := hlow 0 hpos
      rw [heq o ho] at h1
      simp at h1
  refine ⟨key d hlen, zero d hlen, ?_⟩
  apply zero
  · simp [lru_replacement_policy_new, Nat.mod_eq_of_lt hgeo]
  · intro j hj
    simp [lru_replacement_policy_new, List.getD_eq_getElem?_getD]

/-- Witness of C2: a freshly constructed policy for two sets of four lines,
second set. -/
theorem lru_eviction_index_tie_break_witness :
    (1 ≤ 4 ∧ 1 < 2 ∧ 2 * 4 < UINT32_RANGE ∧
      (lru_replacement_policy_new 2 4).access_times.length = 2 * 4) ∧
    lru_eviction_index 3 8 (lru_replacement_policy_new 2 4) ⟨4, []⟩ 1 = some 0 :=
  ⟨by decide, (lru_eviction_index_tie_break 3 8 2 1 (lru_replacement_policy_new 2 4) ⟨4, []⟩
    (by decide) (by decide) (by decide) (by decide)).2.2⟩

/-- C3: start from a freshly constructed LRU policy and a cache whose set `s`
holds pairwise distinct tags; after every sequence of fewer than 2^32
`lru_cache_access` calls to valid sets in which every tag of set `s` is
accessed at least once, `lru_eviction_index` returns the offset `o` of the line
whose last access (position `p` of the sequence) is the earliest: the last
access of every other line of the set is at a later position. -/
theorem lru_eviction_index_after_accesses (index0 min_time0 sets s : Nat) (cs : cache_system)
    (acc : List (Nat × Nat)) (ha : 1 ≤ cs.associativity) (hs : s < sets)
    (hgeo : sets * cs.associativity < UINT32_RANGE)
    (hlines : cs.cache_lines.length = sets * cs.associativity)
    (hdistinct : ∀ i, i < cs.associativity → ∀ j, j < cs.associativity →
      tag_at cs.cache_lines (s * cs.associativity + i) =
        tag_at cs.cache_lines (s * cs.associativity + j) → i = j)
    (hcount : acc.length < UINT32_RANGE)
    (hvalid : ∀ x ∈ acc, x.1 < sets)
    (hall : ∀ j, j < cs.associativity →
      (s, tag_at cs.cache_lines (s * cs.associativity + j)) ∈ acc) :
    ∃ (d : lru_data) (o p : Nat), run_accesses cs (lru_replacement_policy_new sets cs.associativity) acc = some d ∧
      lru_eviction_index index0 min_time0 d cs s = some o ∧ o < cs.associativity ∧
      acc[p]? = some (s, tag_at cs.cache_lines (s * cs.associativity + o)) ∧
      (∀ r : Nat, p < r → acc[r]? ≠ some (s, tag_at cs.cache_lines (s * cs.associativity + o))) ∧
      (∀ j, j < cs.associativity → j ≠ o →
        ∃ q : Nat, p < q ∧ acc[q]? = some (s, tag_at cs.cache_lines (s * cs.associativity + j)) ∧
          ∀ r : Nat, q < r → acc[r]? ≠ some (s, tag_at cs.cache_lines (s * cs.associativity + j))) := by
  obtain ⟨_, _, hle⟩ := set_bounds cs sets s hs hgeo
  obtain ⟨d, hrun, _, hlen, hstamps⟩ :=
    run_accesses_stamps sets s cs hs hgeo hlines hdistinct acc hcount hvalid
  obtain ⟨o, t, hres, ho, ht, hmin, _⟩ :=
    lru_eviction_index_spec index0 min_time0 sets s d cs ha hs hgeo hlen
  have h1 := getElem?_of_getD d.access_times (s * cs.associativity + o) (by omega)
  rw [ht] at h1
  obtain rfl := Option.some.inj h1
  rcases hstamps o ho with ⟨_, hmem⟩ | ⟨p, hp, hget, hlast⟩
  · exact absurd (hall o ho) hmem
  · refine ⟨d, o, p, hrun, hres, ho, hget, hlast, ?_⟩
    intro j hj hjo
    have hle' := hmin j _ hj (getElem?_of_getD _ _ (by omega))
    rcases hstamps j hj with ⟨_, hmem⟩ | ⟨q, hq, hgetq, hlastq⟩
    · exact absurd (hall j hj) hmem
    · refine ⟨q, ?_, hgetq, hlastq⟩
      rcases Nat.lt_or_ge p q with hlt | hge
      · exact hlt
      · have hpq : p = q := by omega
        subst hpq
        rw [hget] at hgetq
        have htags := congrArg Prod.snd (Option.some.inj hgetq)
        exact absurd (hdistinct o ho j hj htags).symm hjo

/-- Witness of C3: associativity 4, one set with the tags 10, 20, 30, 40
(A, B, C, D).  The accesses A, B, C, D give the timestamps 1, 2, 3, 4 and the
victim is offset 0 (A); accessing A again gives it timestamp 5 and the victim
is offset 1 (B). -/
theorem lru_eviction_index_after_accesses_witness :
    (∃ (d : lru_data) (o p : Nat), run_accesses ⟨4, [⟨10, CLEAN⟩, ⟨20, CLEAN⟩, ⟨30, CLEAN⟩, ⟨40, CLEAN⟩]⟩
        (lru_replacement_policy_new 1 4) [(0, 10), (0, 20), (0, 30), (0, 40), (0, 10)]
        = some d ∧
      lru_eviction_index 0 0 d ⟨4, [⟨10, CLEAN⟩, ⟨20, CLEAN⟩, ⟨30, CLEAN⟩, ⟨40, CLEAN⟩]⟩ 0
        = some o ∧ o < 4 ∧
      [(0, 10), (0, 20), (0, 30), (0, 40), (0, 10)][p]? =
        some (0, tag_at [⟨10, CLEAN⟩, ⟨20, CLEAN⟩, ⟨30, CLEAN⟩, ⟨40, CLEAN⟩] (0 * 4 + o)) ∧
      (∀ r : Nat, p < r → [(0, 10), (0, 20), (0, 30), (0, 40), (0, 10)][r]? ≠
        some (0, tag_at [⟨10, CLEAN⟩, ⟨20, CLEAN⟩, ⟨30, CLEAN⟩, ⟨40, CLEAN⟩] (0 * 4 + o))) ∧
      (∀ j, j < 4 → j ≠ o →
        ∃ q : Nat, p < q ∧ [(0, 10), (0, 20), (0, 30), (0, 40), (0, 10)][q]? =
          some (0, tag_at [⟨10, CLEAN⟩, ⟨20, CLEAN⟩, ⟨30, CLEAN⟩, ⟨40, CLEAN⟩] (0 * 4 + j)) ∧
          ∀ r : Nat, q < r → [(0, 10), (0, 20), (0, 30), (0, 40), (0, 10)][r]? ≠
            some (0, tag_at [⟨10, CLEAN⟩, ⟨20, CLEAN⟩, ⟨30, CLEAN⟩, ⟨40, CLEAN⟩]
              (0 * 4 + j)))) ∧
    run_accesses ⟨4, [⟨10, CLEAN⟩, ⟨20, CLEAN⟩, ⟨30, CLEAN⟩, ⟨40, CLEAN⟩]⟩
        (lru_replacement_policy_new 1 4) [(0, 10), (0, 20), (0, 30), (0, 40)]
      = some ⟨4, 4, [1, 2, 3, 4]⟩ ∧
    lru_eviction_index 0 0 ⟨4, 4, [1, 2, 3, 4]⟩
        ⟨4, [⟨10, CLEAN⟩, ⟨20, CLEAN⟩, ⟨30, CLEAN⟩, ⟨40, CLEAN⟩]⟩ 0 = some 0 ∧
    run_accesses ⟨4, [⟨10, CLEAN⟩, ⟨20, CLEAN⟩, ⟨30, CLEAN⟩, ⟨40, CLEAN⟩]⟩
        (lru_replacement_policy_new 1 4) [(0, 10), (0, 20), (0, 30), (0, 40), (0, 10)]
      = some ⟨4, 5, [5, 2, 3, 4]⟩ ∧
    lru_eviction_index 0 0 ⟨4, 5, [5, 2, 3, 4]⟩
        ⟨4, [⟨10, CLEAN⟩, ⟨20, CLEAN⟩, ⟨30, CLEAN⟩, ⟨40, CLEAN⟩]⟩ 0 = some 1 :=
  ⟨lru_eviction_index_after_accesses 0 0 1 0
    ⟨4, [⟨10, CLEAN⟩, ⟨20, CLEAN⟩, ⟨30, CLEAN⟩, ⟨40, CLEAN⟩]⟩
    [(0, 10), (0, 20), (0, 30), (0, 40), (0, 10)] (by decide) (by decide) (by decide)
    (by decide) (by decide) (by decide) (by decide) (by decide),
    by decide, by decide, by decide, by decide⟩

/-- C4: for every state, every valid set index and every cache whose set holds
at least one line with a status other than MODIFIED,
`lru_prefer_clean_eviction_index` returns the offset of a line of the set whose
status is not MODIFIED. -/
theorem lru_prefer_clean_eviction_index_not_modified
    (index0 min_time0 lru_index0 lru_min_time0 sets s : Nat) (d : lru_data)
    (cs : cache_system) (hs : s < sets)
    (hgeo : sets * cs.associativity < UINT32_RANGE)
    (hlen : d.access_times.length = sets * cs.associativity)
    (hlines : cs.cache_lines.length = sets * cs.associativity)
    (hclean : ∃ j, j < cs.associativity ∧
      status_at cs.cache_lines (s * cs.associativity + j) ≠ MODIFIED) :
    ∃ o, lru_prefer_clean_eviction_index index0 min_time0 lru_index0 lru_min_time0 d cs s
        = some o ∧ o < cs.associativity ∧
      status_at cs.cache_lines (s * cs.associativity + o) ≠ MODIFIED := by
  obtain ⟨_, _, hle⟩ := set_bounds cs sets s hs hgeo
  obtain ⟨j0, hj0, hc0⟩ := hclean
  obtain ⟨o, t, hres, ho, hc, _⟩ :=
    lru_prefer_clean_eviction_index_spec index0 min_time0 lru_index0 lru_min_time0 sets s d cs
      hs hgeo hlen hlines
      ⟨j0, hj0, (not_modified_at_iff _ _ (by omega)).mpr hc0⟩
  exact ⟨o, hres, ho, (not_modified_at_iff _ _ (by omega)).mp hc⟩

/-- Witness of C4: line 0 (the oldest) is MODIFIED, line 1 is INVALID. -/
theorem lru_prefer_clean_eviction_index_not_modified_witness :
    ∃ o, lru_prefer_clean_eviction_index 0 0 0 0 ⟨4, 9, [1, 6, 3, 4]⟩
        ⟨4, [⟨10, MODIFIED⟩, ⟨20, INVALID⟩, ⟨30, MODIFIED⟩, ⟨40, CLEAN⟩]⟩ 0 = some o ∧ o < 4 ∧
      status_at [⟨10, MODIFIED⟩, ⟨20, INVALID⟩, ⟨30, MODIFIED⟩, ⟨40, CLEAN⟩] (0 * 4 + o)
        ≠ MODIFIED :=
  lru_prefer_clean_eviction_index_not_modified 0 0 0 0 1 0 ⟨4, 9, [1, 6, 3, 4]⟩
    ⟨4, [⟨10, MODIFIED⟩, ⟨20, INVALID⟩, ⟨30, MODIFIED⟩, ⟨40, CLEAN⟩]⟩ (by decide) (by decide)
    (by decide) (by decide) ⟨1, by decide, by decide⟩

/-- C5: when the set holds at least one line that is not MODIFIED,
`lru_prefer_clean_eviction_index` returns the offset of a line that is not
MODIFIED (INVALID lines count), whose timestamp is at most the timestamp of
every line of the set that is not MODIFIED, and every lower offset that is not
MODIFIED holds a strictly larger timestamp. -/
theorem lru_prefer_clean_eviction_index_selection
    (index0 min_time0 lru_index0 lru_min_time0 sets s : Nat) (d : lru_data)
    (cs : cache_system) (hs : s < sets)
    (hgeo : sets * cs.associativity < UINT32_RANGE)
    (hlen : d.access_times.length = sets * cs.associativity)
    (hlines : cs.cache_lines.length = sets * cs.associativity)
    (hclean : ∃ j, j < cs.associativity ∧
      status_at cs.cache_lines (s * cs.associativity + j) ≠ MODIFIED) :
    ∃ o, lru_prefer_clean_eviction_index index0 min_time0 lru_index0 lru_min_time0 d cs s
        = some o ∧ o < cs.associativity ∧
      status_at cs.cache_lines (s * cs.associativity + o) ≠ MODIFIED ∧
      (∀ j, j < cs.associativity →
        status_at cs.cache_lines (s * cs.associativity + j) ≠ MODIFIED →
        d.access_times.getD (s * cs.associativity + o) 0 ≤
          d.access_times.getD (s * cs.associativity + j) 0) ∧
      (∀ j, j < o → status_at cs.cache_lines (s * cs.associativity + j) ≠ MODIFIED →
        d.access_times.getD (s * cs.associativity + o) 0 <
          d.access_times.getD (s * cs.associativity + j) 0) := by
  obtain ⟨_, _, hle⟩ := set_bounds cs sets s hs hgeo
  obtain ⟨j0, hj0, hc0⟩ := hclean
  obtain ⟨o, t, hres, ho, hc, ht, hmin, hlow⟩ :=
    lru_prefer_clean_eviction_index_spec index0 min_time0 lru_index0 lru_min_time0 sets s d cs
      hs hgeo hlen hlines
      ⟨j0, hj0, (not_modified_at_iff _ _ (by omega)).mpr hc0⟩
  have h1 := getElem?_of_getD d.access_times (s * cs.associativity + o) (by omega)
  rw [ht] at h1
  obtain rfl := Option.some.inj h1
  refine ⟨o, hres, ho, (not_modified_at_iff _ _ (by omega)).mp hc, ?_, ?_⟩
  · intro j hj hcj
    exact hmin j _ hj ((not_modified_at_iff _ _ (by omega)).mpr hcj)
      (getElem?_of_getD _ _ (by omega))
  · intro j hj hcj
    exact hlow j _ hj ((not_modified_at_iff _ _ (by omega)).mpr hcj)
      (getElem?_of_getD _ _ (by omega))

/-- Witness of C5: timestamps 5, 2, 3, 4 with line 0 MODIFIED and lines 1 to 3
CLEAN give offset 1; with line 1 INVALID and an older MODIFIED line 0 the
INVALID line is chosen. -/
theorem lru_prefer_clean_eviction_index_selection_witness :
    (∃ o, lru_prefer_clean_eviction_index 0 0 0 0 ⟨4, 5, [5, 2, 3, 4]⟩
        ⟨4, [⟨10, MODIFIED⟩, ⟨20, CLEAN⟩, ⟨30, CLEAN⟩, ⟨40, CLEAN⟩]⟩ 0 = some o ∧ o < 4 ∧
      status_at [⟨10, MODIFIED⟩, ⟨20, CLEAN⟩, ⟨30, CLEAN⟩, ⟨40, CLEAN⟩] (0 * 4 + o)
        ≠ MODIFIED ∧
      (∀ j, j < 4 →
        status_at [⟨10, MODIFIED⟩, ⟨20, CLEAN⟩, ⟨30, CLEAN⟩, ⟨40, CLEAN⟩] (0 * 4 + j)
          ≠ MODIFIED →
        [5, 2, 3, 4].getD (0 * 4 + o) 0 ≤ [5, 2, 3, 4].getD (0 * 4 + j) 0) ∧
      (∀ j, j < o →
        status_at [⟨10, MODIFIED⟩, ⟨20, CLEAN⟩, ⟨30, CLEAN⟩, ⟨40, CLEAN⟩] (0 * 4 + j)
          ≠ MODIFIED →
        [5, 2, 3, 4].getD (0 * 4 + o) 0 < [5, 2, 3, 4].getD (0 * 4 + j) 0)) ∧
    lru_prefer_clean_eviction_index 0 0 0 0 ⟨4, 5, [5, 2, 3, 4]⟩
        ⟨4, [⟨10, MODIFIED⟩, ⟨20, CLEAN⟩, ⟨30, CLEAN⟩, ⟨40, CLEAN⟩]⟩ 0 = some 1 ∧
    lru_prefer_clean_eviction_index 0 0 0 0 ⟨4, 9, [1, 6, 7, 8]⟩
        ⟨4, [⟨10, MODIFIED⟩, ⟨20, INVALID⟩, ⟨30, CLEAN⟩, ⟨40, CLEAN⟩]⟩ 0 = some 1 :=
  ⟨lru_prefer_clean_eviction_index_selection 0 0 0 0 1 0 ⟨4, 5, [5, 2, 3, 4]⟩
    ⟨4, [⟨10, MODIFIED⟩, ⟨20, CLEAN⟩, ⟨30, CLEAN⟩, ⟨40, CLEAN⟩]⟩ (by decide) (by decide)
    (by decide) (by decide) ⟨1, by decide, by decide⟩, by decide, by decide⟩

/-- C6: for every state and valid set index in which every line of the set is
MODIFIED, `lru_prefer_clean_eviction_index` returns exactly the offset that
`lru_eviction_index` returns on the same state and set, whatever the
indeterminate initial values of the locals of either function are. -/
theorem lru_prefer_clean_eviction_index_all_modified
    (index0 min_time0 lru_index0 lru_min_time0 index1 min_time1 sets s : Nat) (d : lru_data)
    (cs : cache_system) (ha : 1 ≤ cs.associativity) (hs : s < sets)
    (hgeo : sets * cs.associativity < UINT32_RANGE)
    (hlen : d.access_times.length = sets * cs.associativity)
    (hlines : cs.cache_lines.length = sets * cs.associativity)
    (hdirty : ∀ j, j < cs.associativity →
      status_at cs.cache_lines (s * cs.associativity + j) = MODIFIED) :
    ∃ o, lru_prefer_clean_eviction_index index0 min_time0 lru_index0 lru_min_time0 d cs s
        = some o ∧
      lru_eviction_index index1 min_time1 d cs s = some o := by
  obtain ⟨_, _, hle⟩ := set_bounds cs sets s hs hgeo
  have hfall := lru_prefer_clean_eviction_index_fallback index0 min_time0 lru_index0
    lru_min_time0 sets s d cs hs hgeo hlen hlines (by
      intro j hj hc
      exact (not_modified_at_iff _ _ (by omega)).mp hc (hdirty j hj))
  obtain ⟨o, _, hres, _⟩ :=
    lru_eviction_index_spec index1 min_time1 sets s d cs ha hs hgeo hlen
  refine ⟨o, ?_, hres⟩
  rw [hfall, lru_eviction_index_initial_values lru_index0 lru_min_time0 index1 min_time1
    sets s d cs ha hs hgeo hlen]
  exact hres

/-- Witness of C6: four MODIFIED lines with timestamps 5, 2, 3, 4. -/
theorem lru_prefer_clean_eviction_index_all_modified_witness :
    ∃ o, lru_prefer_clean_eviction_index 1 2 3 4 ⟨4, 5, [5, 2, 3, 4]⟩
        ⟨4, [⟨10, MODIFIED⟩, ⟨20, MODIFIED⟩, ⟨30, MODIFIED⟩, ⟨40, MODIFIED⟩]⟩ 0 = some o ∧
      lru_eviction_index 5 6 ⟨4, 5, [5, 2, 3, 4]⟩
        ⟨4, [⟨10, MODIFIED⟩, ⟨20, MODIFIED⟩, ⟨30, MODIFIED⟩, ⟨40, MODIFIED⟩]⟩ 0 = some o :=
  lru_prefer_clean_eviction_index_all_modified 1 2 3 4 5 6 1 0 ⟨4, 5, [5, 2, 3, 4]⟩
    ⟨4, [⟨10, MODIFIED⟩, ⟨20, MODIFIED⟩, ⟨30, MODIFIED⟩, ⟨40, MODIFIED⟩]⟩ (by decide)
    (by decide) (by decide) (by decide) (by decide) (by decide)

/-- C8 (amended): for every LRU state, valid set index and tag that no line of
the set holds, `lru_cache_access` returns, sets the clock to its 32-bit
successor, which is the clock plus one whenever the clock is below 2^32 - 1,
and leaves the whole table of timestamps unchanged. -/
theorem lru_cache_access_miss (sets s t : Nat) (d : lru_data) (cs : cache_system)
    (hs : s < sets) (hgeo : sets * cs.associativity < UINT32_RANGE)
    (hlen : d.access_times.length = sets * cs.associativity)
    (hlines : cs.cache_lines.length = sets * cs.associativity)
    (hmiss : ∀ j, j < cs.associativity →
      tag_at cs.cache_lines (s * cs.associativity + j) ≠ t) :
    ∃ d', lru_cache_access d cs s t = some d' ∧
      d'.current_time = (d.current_time + 1) % UINT32_RANGE ∧
      (d.current_time < UINT32_RANGE - 1 → d'.current_time = d.current_time + 1) ∧
      d'.access_times = d.access_times := by
  obtain ⟨d', hres, hclock, _, hcase⟩ := lru_cache_access_spec sets s t d cs hs hgeo hlen hlines
  refine ⟨d', hres, hclock, ?_, ?_⟩
  · intro hlt
    rw [hclock]
    exact Nat.mod_eq_of_lt (by omega)
  · rcases hcase with ⟨_, h⟩ | ⟨o, ho, htag, _⟩
    · exact h
    · exact absurd htag (hmiss o ho)

/-- Witness of C8 (amended): a miss in the second of two sets. -/
theorem lru_cache_access_miss_witness :
    ∃ d', lru_cache_access ⟨4, 7, [1, 2, 5, 7]⟩
        ⟨2, [⟨10, CLEAN⟩, ⟨20, CLEAN⟩, ⟨30, MODIFIED⟩, ⟨40, INVALID⟩]⟩ 1 10 = some d' ∧
      d'.current_time = (7 + 1) % UINT32_RANGE ∧
      (7 < UINT32_RANGE - 1 → d'.current_time = 7 + 1) ∧
      d'.access_times = [1, 2, 5, 7] :=
  lru_cache_access_miss 2 1 10 ⟨4, 7, [1, 2, 5, 7]⟩
    ⟨2, [⟨10, CLEAN⟩, ⟨20, CLEAN⟩, ⟨30, MODIFIED⟩, ⟨40, INVALID⟩]⟩ (by decide) (by decide)
    (by decide) (by decide) (by decide)

/-- Counterexample to C8 as stated: at clock 2^32 - 1 a miss does not increase
the clock by one, the 32-bit increment wraps it to 0. -/
theorem lru_cache_access_miss_wraps :
    ∃ d', lru_cache_access ⟨4, 4294967295, [1, 2, 5, 7]⟩
        ⟨4, [⟨10, CLEAN⟩, ⟨20, CLEAN⟩, ⟨30, MODIFIED⟩, ⟨40, INVALID⟩]⟩ 0 99 = some d' ∧
      d'.current_time = 0 ∧ d'.current_time ≠ 4294967295 + 1 :=
  ⟨⟨4, 0, [1, 2, 5, 7]⟩, by decide, rfl, by decide⟩

/-- C9: for every LRU state, valid set index and tag held by some line of the
set, `lru_cache_access` returns, writes the incremented clock at the
lowest-offset line of the set whose tag matches (the status of the lines is
never read), keeps the length of the table and leaves every other entry of the
table unchanged. -/
theorem lru_cache_access_hit (sets s t : Nat) (d : lru_data) (cs : cache_system)
    (hs : s < sets) (hgeo : sets * cs.associativity < UINT32_RANGE)
    (hlen : d.access_times.length = sets * cs.associativity)
    (hlines : cs.cache_lines.length = sets * cs.associativity)
    (hhit : ∃ j, j < cs.associativity ∧
      tag_at cs.cache_lines (s * cs.associativity + j) = t) :
    ∃ d' o, lru_cache_access d cs s t = some d' ∧
      d'.current_time = (d.current_time + 1) % UINT32_RANGE ∧
      o < cs.associativity ∧ tag_at cs.cache_lines (s * cs.associativity + o) = t ∧
      (∀ j, j < o → tag_at cs.cache_lines (s * cs.associativity + j) ≠ t) ∧
      d'.access_times.length = d.access_times.length ∧
      d'.access_times.getD (s * cs.associativity + o) 0 = d'.current_time ∧
      (∀ k, k ≠ s * cs.associativity + o →
        d'.access_times.getD k 0 = d.access_times.getD k 0) := by
  obtain ⟨_, _, hle⟩ := set_bounds cs sets s hs hgeo
  obtain ⟨d', hres, hclock, _, hcase⟩ := lru_cache_access_spec sets s t d cs hs hgeo hlen hlines
  rcases hcase with ⟨hall, _⟩ | ⟨o, ho, htag, hfirst, hset⟩
  · obtain ⟨j, hj, hjt⟩ := hhit
    exact absurd hjt (hall j hj)
  · refine ⟨d', o, hres, hclock, ho, htag, hfirst, ?_, ?_, ?_⟩
    · rw [hset, List.length_set]
    · have hin : s * cs.associativity + o < d.access_times.length := by omega
      rw [hset, hclock, List.getD_eq_getElem?_getD, List.getElem?_set_self hin]
      rfl
    · intro k hk
      rw [hset, List.getD_eq_getElem?_getD, List.getD_eq_getElem?_getD,
        List.getElem?_set_ne (Ne.symm hk)]

/-- Witness of C9: two lines of the set hold the tag, the lower one is
stamped. -/
theorem lru_cache_access_hit_witness :
    lru_cache_access ⟨4, 7, [1, 2, 5, 7]⟩
        ⟨2, [⟨10, CLEAN⟩, ⟨20, CLEAN⟩, ⟨30, MODIFIED⟩, ⟨30, INVALID⟩]⟩ 1 30
      = some ⟨4, 8, [1, 2, 8, 7]⟩ ∧
    ∃ d' o, lru_cache_access ⟨4, 7, [1, 2, 5, 7]⟩
        ⟨2, [⟨10, CLEAN⟩, ⟨20, CLEAN⟩, ⟨30, MODIFIED⟩, ⟨30, INVALID⟩]⟩ 1 30 = some d' ∧
      d'.current_time = (7 + 1) % UINT32_RANGE ∧
      o < 2 ∧
      tag_at [⟨10, CLEAN⟩, ⟨20, CLEAN⟩, ⟨30, MODIFIED⟩, ⟨30, INVALID⟩] (1 * 2 + o) = 30 ∧
      (∀ j, j < o →
        tag_at [⟨10, CLEAN⟩, ⟨20, CLEAN⟩, ⟨30, MODIFIED⟩, ⟨30, INVALID⟩] (1 * 2 + j) ≠ 30) ∧
      d'.access_times.length = [1, 2, 5, 7].length ∧
      d'.access_times.getD (1 * 2 + o) 0 = d'.current_time ∧
      (∀ k, k ≠ 1 * 2 + o → d'.access_times.getD k 0 = [1, 2, 5, 7].getD k 0) :=
  ⟨by decide, lru_cache_access_hit 2 1 30 ⟨4, 7, [1, 2, 5, 7]⟩
    ⟨2, [⟨10, CLEAN⟩, ⟨20, CLEAN⟩, ⟨30, MODIFIED⟩, ⟨30, INVALID⟩]⟩ (by decide) (by decide)
    (by decide) (by decide) ⟨0, by decide, by decide⟩⟩

/-- C7 (amended): one set of associativity 4 whose lines at offsets 0 to 3 hold
the distinct tags A, B, C, D, a freshly constructed LRU_PREFER_CLEAN policy and
the accesses A, B, C, D, A leave the timestamps 5, 2, 3, 4; once all four lines
are MODIFIED `lru_prefer_clean_eviction_index` falls back to plain LRU and
returns offset 1, the line of B, which holds the minimum timestamp 2. -/
theorem prefer_clean_scenario_all_modified (A B C D : Nat) (s0 s1 s2 s3 : status)
    (index0 min_time0 lru_index0 lru_min_time0 : Nat)
    (hAB : A ≠ B) (hAC : A ≠ C) (hAD : A ≠ D) (hBC : B ≠ C) (hBD : B ≠ D) (hCD : C ≠ D) :
    ∃ d, run_prefer_clean_accesses ⟨4, [⟨A, s0⟩, ⟨B, s1⟩, ⟨C, s2⟩, ⟨D, s3⟩]⟩
        (lru_prefer_clean_replacement_policy_new 1 4)
        [(0, A), (0, B), (0, C), (0, D), (0, A)] = some d ∧
      d.current_time = 5 ∧ d.access_times = [5, 2, 3, 4] ∧
      lru_prefer_clean_eviction_index index0 min_time0 lru_index0 lru_min_time0 d
        ⟨4, [⟨A, MODIFIED⟩, ⟨B, MODIFIED⟩, ⟨C, MODIFIED⟩, ⟨D, MODIFIED⟩]⟩ 0 = some 1 := by
  refine ⟨⟨4, 5, [5, 2, 3, 4]⟩, ?_, rfl, rfl, ?_⟩
  · simp [run_prefer_clean_accesses, lru_prefer_clean_cache_access, lru_cache_access,
      lru_cache_access_loop, lru_prefer_clean_replacement_policy_new, set_begin, set_end,
      UINT32_RANGE, hAB, hAC, hAD, hBC, hBD, hCD]
  · simp [lru_prefer_clean_eviction_index, lru_prefer_clean_eviction_loop, lru_eviction_index,
      lru_eviction_loop, set_begin, set_end, UINT32_RANGE]

/-- Witness of C7 (amended): the tags 10, 20, 30, 40 on CLEAN lines. -/
theorem prefer_clean_scenario_all_modified_witness :
    ∃ d, run_prefer_clean_accesses ⟨4, [⟨10, CLEAN⟩, ⟨20, CLEAN⟩, ⟨30, CLEAN⟩, ⟨40, CLEAN⟩]⟩
        (lru_prefer_clean_replacement_policy_new 1 4)
        [(0, 10), (0, 20), (0, 30), (0, 40), (0, 10)] = some d ∧
      d.current_time = 5 ∧ d.access_times = [5, 2, 3, 4] ∧
      lru_prefer_clean_eviction_index 0 0 0 0 d
        ⟨4, [⟨10, MODIFIED⟩, ⟨20, MODIFIED⟩, ⟨30, MODIFIED⟩, ⟨40, MODIFIED⟩]⟩ 0 = some 1 :=
  prefer_clean_scenario_all_modified 10 20 30 40 CLEAN CLEAN CLEAN CLEAN 0 0 0 0
    (by decide) (by decide) (by decide) (by decide) (by decide) (by decide)

/-- Counterexample to C7 as stated: with the tags 10, 20, 30, 40 the accesses
A, B, C, D, A leave the timestamps 5, 2, 3, 4, and with all four lines MODIFIED
the result is offset 1 (the line of B), not offset 0 (the line of A). -/
theorem prefer_clean_scenario_not_offset_zero :
    run_prefer_clean_accesses ⟨4, [⟨10, CLEAN⟩, ⟨20, CLEAN⟩, ⟨30, CLEAN⟩, ⟨40, CLEAN⟩]⟩
        (lru_prefer_clean_replacement_policy_new 1 4)
        [(0, 10), (0, 20), (0, 30), (0, 40), (0, 10)] = some ⟨4, 5, [5, 2, 3, 4]⟩ ∧
    lru_prefer_clean_eviction_index 0 0 0 0 ⟨4, 5, [5, 2, 3, 4]⟩
        ⟨4, [⟨10, MODIFIED⟩, ⟨20, MODIFIED⟩, ⟨30, MODIFIED⟩, ⟨40, MODIFIED⟩]⟩ 0 = some 1 ∧
    lru_prefer_clean_eviction_index 0 0 0 0 ⟨4, 5, [5, 2, 3, 4]⟩
        ⟨4, [⟨10, MODIFIED⟩, ⟨20, MODIFIED⟩, ⟨30, MODIFIED⟩, ⟨40, MODIFIED⟩]⟩ 0 ≠ some 0 := by
  refine ⟨by decide, by decide, by decide⟩

/-! ## Further lemmas on the eviction scans -/

/-- Two tables that agree on the lines of a set give the same LRU victim,
whatever the caches (of one associativity) and the initial values of the
locals are. -/
theorem lru_eviction_index_agree (index0 min_time0 index1 min_time1 sets s : Nat)
    (d d' : lru_data) (cs cs' : cache_system) (ha : 1 ≤ cs.associativity)
    (hassoc : cs'.associativity = cs.associativity) (hs : s < sets)
    (hgeo : sets * cs.associativity < UINT32_RANGE)
    (hlen : d.access_times.length = sets * cs.associativity)
    (hlen' : d'.access_times.length = sets * cs.associativity)
    (hagree : ∀ j, j < cs.associativity →
      d.access_times[s * cs.associativity + j]? = d'.access_times[s * cs.associativity + j]?) :
    ∃ o, o < cs.associativity ∧ lru_eviction_index index0 min_time0 d cs s = some o ∧
      lru_eviction_index index1 min_time1 d' cs' s = some o := by
  obtain ⟨o, t, hres, ho, ht, hmin, hlow⟩ :=
    lru_eviction_index_spec index0 min_time0 sets s d cs ha hs hgeo hlen
  obtain ⟨o', t', hres', ho', ht', hmin', hlow'⟩ :=
    lru_eviction_index_spec index1 min_time1 sets s d' cs' (by omega) hs
      (by rw [hassoc]; exact hgeo) (by rw [hassoc]; exact hlen')
  rw [hassoc] at ho' ht' hmin' hlow'
  have hoo : o = o' := by
    rcases Nat.lt_trichotomy o o' with h | h | h
    · have h1 := hlow' o t h (by rw [← hagree o ho]; exact ht)
      have h2 := hmin o' t' ho' (by rw [hagree o' ho']; exact ht')
      omega
    · exact h
    · have h1 := hlow o' t' h (by rw [hagree o' ho']; exact ht')
      have h2 := hmin' o t ho (by rw [← hagree o ho]; exact ht)
      omega
  subst hoo
  exact ⟨o, ho, hres, hres'⟩

/-- The result of `lru_prefer_clean_eviction_index` on a valid set is an offset
of the set and does not depend on the indeterminate initial values of the
locals of the scan and of the nested scan. -/
theorem lru_prefer_clean_eviction_index_initial_values
    (index0 min_time0 lru_index0 lru_min_time0 index1 min_time1 lru_index1 lru_min_time1 : Nat)
    (sets s : Nat) (d : lru_data) (cs : cache_system) (ha : 1 ≤ cs.associativity)
    (hs : s < sets) (hgeo : sets * cs.associativity < UINT32_RANGE)
    (hlen : d.access_times.length = sets * cs.associativity)
    (hlines : cs.cache_lines.length = sets * cs.associativity) :
    ∃ o, o < cs.associativity ∧
      lru_prefer_clean_eviction_index index0 min_time0 lru_index0 lru_min_time0 d cs s
        = some o ∧
      lru_prefer_clean_eviction_index index1 min_time1 lru_index1 lru_min_time1 d cs s
        = some o := by
  by_cases hclean : ∃ j, j < cs.associativity ∧
      not_modified_at cs.cache_lines (s * cs.associativity + j)
  · obtain ⟨o, t, hres, ho, hc, ht, hmin, hlow⟩ :=
      lru_prefer_clean_eviction_index_spec index0 min_time0 lru_index0 lru_min_time0 sets s
        d cs hs hgeo hlen hlines hclean
    obtain ⟨o', t', hres', ho', hc', ht', hmin', hlow'⟩ :=
      lru_prefer_clean_eviction_index_spec index1 min_time1 lru_index1 lru_min_time1 sets s
        d cs hs hgeo hlen hlines hclean
    have hoo : o = o' := by
      rcases Nat.lt_trichotomy o o' with h | h | h
      · have h1 := hlow' o t h hc ht
        have h2 := hmin o' t' ho' hc' ht'
        omega
      · exact h
      · have h1 := hlow o' t' h hc' ht'
        have h2 := hmin' o t ho hc ht
        omega
    subst hoo
    exact ⟨o, ho, hres, hres'⟩
  · have hdirty : ∀ j, j < cs.associativity →
        ¬ not_modified_at cs.cache_lines (s * cs.associativity + j) :=
      fun j hj hc => hclean ⟨j, hj, hc⟩
    obtain ⟨o, ho, hres, hres'⟩ := lru_eviction_index_agree lru_index0 lru_min_time0
      lru_index1 lru_min_time1 sets s d d cs cs ha rfl hs hgeo hlen hlen (fun _ _ => rfl)
    refine ⟨o, ho, ?_, ?_⟩
    · rw [lru_prefer_clean_eviction_index_fallback index0 min_time0 lru_index0 lru_min_time0
        sets s d cs hs hgeo hlen hlines hdirty]
      exact hres
    · rw [lru_prefer_clean_eviction_index_fallback index1 min_time1 lru_index1 lru_min_time1
        sets s d cs hs hgeo hlen hlines hdirty]
      exact hres'

/-- The loop of `lru_cache_access` reads the tags of the lines only: two line
arrays with the same tags give the same result. -/
theorem lru_cache_access_loop_tags (lines lines' : List cache_line) (tag now : Nat)
    (times : List Nat)
    (htags : lines.map cache_line.tag = lines'.map cache_line.tag) :
    ∀ (n i : Nat), lru_cache_access_loop lines tag now n i times =
      lru_cache_access_loop lines' tag now n i times := by
  intro n
  induction n with
  | zero => intro i; rfl
  | succ n ih =>
    intro i
    have hi : (lines[i]?).map cache_line.tag = (lines'[i]?).map cache_line.tag := by
      rw [← List.getElem?_map, ← List.getElem?_map, htags]
    rw [lru_cache_access_loop, lru_cache_access_loop]
    cases h1 : lines[i]? with
    | none =>
      cases h2 : lines'[i]? with
      | none => rfl
      | some l2 => rw [h1, h2] at hi; exact absurd hi (by simp)
    | some l1 =>
      cases h2 : lines'[i]? with
      | none => rw [h1, h2] at hi; exact absurd hi (by simp)
      | some l2 =>
        rw [h1, h2] at hi
        have ht : l1.tag = l2.tag := by simpa using hi
        simp only [ht, ih (i + 1)]

/-! ## Shape of the state after a call -/

/-- Whenever the loop of `lru_cache_access` returns, the table is either
untouched or changed at one position inside the table, which now holds
`now`. -/
theorem lru_cache_access_loop_shape (lines : List cache_line) (tag now : Nat)
    (times : List Nat) :
    ∀ (n i : Nat) (times' : List Nat),
      lru_cache_access_loop lines tag now n i times = some times' →
      times' = times ∨ ∃ k, k < times.length ∧ times' = times.set k now := by
  intro n
  induction n with
  | zero =>
    intro i times' h
    left
    exact (Option.some.inj h).symm
  | succ n ih =>
    intro i times' h
    rw [lru_cache_access_loop] at h
    cases hget : lines[i]? with
    | none => rw [hget] at h; exact absurd h (by simp)
    | some line =>
      rw [hget] at h
      simp only at h
      by_cases hmatch : line.tag = tag
      · rw [if_pos hmatch] at h
        by_cases hi : i < times.length
        · rw [if_pos hi] at h
          right
          exact ⟨i, hi, (Option.some.inj h).symm⟩
        · rw [if_neg hi] at h
          exact absurd h (by simp)
      · rw [if_neg hmatch] at h
        exact ih (i + 1) times' h

/-- Whenever `lru_cache_access` returns, `num_lines` is kept, the clock is the
32-bit successor, and the table is either untouched or holds the new clock at
one position inside the table. -/
theorem lru_cache_access_shape (d d' : lru_data) (cs : cache_system) (set_idx tag : Nat)
    (h : lru_cache_access d cs set_idx tag = some d') :
    d'.num_lines = d.num_lines ∧
    d'.current_time = (d.current_time + 1) % UINT32_RANGE ∧
    (d'.access_times = d.access_times ∨
      ∃ k, k < d.access_times.length ∧
        d'.access_times = d.access_times.set k ((d.current_time + 1) % UINT32_RANGE)) := by
  unfold lru_cache_access at h
  simp only at h
  cases hloop : lru_cache_access_loop cs.cache_lines tag
      ((d.current_time + 1) % UINT32_RANGE) (set_end cs set_idx - set_begin cs set_idx)
      (set_begin cs set_idx) d.access_times with
  | none => rw [hloop] at h; exact absurd h (by simp)
  | some times =>
    rw [hloop] at h
    have hd := Option.some.inj h
    subst hd
    exact ⟨rfl, rfl, lru_cache_access_loop_shape _ _ _ _ _ _ _ hloop⟩

/-- A call on a policy of the LRU family either is an `onAccess` call, with the
effect of `lru_cache_access`, or a `selectVictim` call, which leaves the
`lru_data` as it is. -/
theorem lru_family_call_shape (kind : lru_family) (d d' : lru_data) (call : policy_call)
    (h : lru_family_call kind d call = some d') :
    (∃ cs set_idx tag, call = policy_call.on_access cs set_idx tag ∧
      lru_cache_access d cs set_idx tag = some d') ∨
    (∃ index0 min_time0 lru_index0 lru_min_time0 cs set_idx,
      call = policy_call.select_victim index0 min_time0 lru_index0 lru_min_time0 cs set_idx ∧
      d' = d) := by
  cases call with
  | on_access cs set_idx tag =>
    left
    refine ⟨cs, set_idx, tag, rfl, ?_⟩
    cases kind <;> exact h
  | select_victim index0 min_time0 lru_index0 lru_min_time0 cs set_idx =>
    right
    refine ⟨index0, min_time0, lru_index0, lru_min_time0, cs, set_idx, rfl, ?_⟩
    cases kind with
    | LRU =>
      simp only [lru_family_call, lru_eviction_index_call] at h
      cases hr : lru_eviction_index index0 min_time0 d cs set_idx with
      | none => rw [hr] at h; exact absurd h (by simp)
      | some o => rw [hr] at h; exact (Option.some.inj h).symm
    | LRU_PREFER_CLEAN =>
      simp only [lru_family_call, lru_prefer_clean_eviction_index_call] at h
      cases hr : lru_prefer_clean_eviction_index index0 min_time0 lru_index0 lru_min_time0
          d cs set_idx with
      | none => rw [hr] at h; exact absurd h (by simp)
      | some o => rw [hr] at h; exact (Option.some.inj h).symm

/-- A run of calls keeps the length of the table. -/
theorem run_calls_length (kind : lru_family) (calls : List policy_call) :
    ∀ d d', run_calls kind d calls = some d' →
      d'.access_times.length = d.access_times.length := by
  induction calls with
  | nil =>
    intro d d' h
    rw [← Option.some.inj h]
  | cons call rest ih =>
    intro d d' h
    simp only [run_calls] at h
    cases hc : lru_family_call kind d call with
    | none => rw [hc] at h; exact absurd h (by simp)
    | some d1 =>
      rw [hc] at h
      rw [ih d1 d' h]
      rcases lru_family_call_shape kind d d1 call hc with
        ⟨cs, set_idx, tag, _, hacc⟩ | ⟨_, _, _, _, _, _, _, hd⟩
      · obtain ⟨_, _, hcase⟩ := lru_cache_access_shape d d1 cs set_idx tag hacc
        rcases hcase with h1 | ⟨k, _, h1⟩
        · rw [h1]
        · rw [h1, List.length_set]
      · rw [hd]

/-- A run of calls that respect the geometry of the table returns. -/
theorem run_calls_returns (kind : lru_family) (sets associativity : Nat)
    (ha : 1 ≤ associativity) (hgeo : sets * associativity < UINT32_RANGE)
    (calls : List policy_call) :
    ∀ d, d.access_times.length = sets * associativity →
      (∀ c ∈ calls, valid_call sets associativity c) →
      ∃ d', run_calls kind d calls = some d' := by
  induction calls with
  | nil => intro d _ _; exact ⟨d, rfl⟩
  | cons call rest ih =>
    intro d hlen hvalid
    have hv := hvalid call (List.mem_cons_self _ _)
    have hrest : ∀ c ∈ rest, valid_call sets associativity c :=
      fun c hc => hvalid c (List.mem_cons_of_mem _ hc)
    have hstep : ∃ d1, lru_family_call kind d call = some d1 := by
      cases call with
      | on_access cs set_idx tag =>
        obtain ⟨hassoc, hlines, hs⟩ := hv
        subst hassoc
        obtain ⟨d1, hres, _⟩ := lru_cache_access_spec sets set_idx tag d cs hs hgeo hlen hlines
        exact ⟨d1, by cases kind <;> exact hres⟩
      | select_victim index0 min_time0 lru_index0 lru_min_time0 cs set_idx =>
        obtain ⟨hassoc, hlines, hs⟩ := hv
        subst hassoc
        cases kind with
        | LRU =>
          obtain ⟨o, _, hres, _⟩ :=
            lru_eviction_index_spec index0 min_time0 sets set_idx d cs ha hs hgeo hlen
          exact ⟨d, by simp only [lru_family_call, lru_eviction_index_call, hres]⟩
        | LRU_PREFER_CLEAN =>
          obtain ⟨o, _, hres, _⟩ := lru_prefer_clean_eviction_index_initial_values index0
            min_time0 lru_index0 lru_min_time0 index0 min_time0 lru_index0 lru_min_time0 sets
            set_idx d cs ha hs hgeo hlen hlines
          exact ⟨d, by simp only [lru_family_call, lru_prefer_clean_eviction_index_call, hres]⟩
    obtain ⟨d1, hd1⟩ := hstep
    have hlen1 : d1.access_times.length = sets * associativity := by
      rw [run_calls_length kind [call] d d1 (by simp only [run_calls, hd1])]
      exact hlen
    obtain ⟨d', hd'⟩ := ih d1 hlen1 hrest
    exact ⟨d', by simp only [run_calls, hd1]; exact hd'⟩

/-! ## Claims on ranges, construction and the RAND policy -/

/-- C11: for each of the three policies, every associativity at least 1, every
valid set index and every state whose table has the `num_lines = sets *
associativity` entries of the geometry (`num_lines` being a `uint32_t`), and for
RAND every generator and every value drawn, the eviction-index function returns
an offset below the associativity. -/
theorem eviction_index_in_range {G : Type} (rand : G → Nat × G) (gen : G)
    (index0 min_time0 lru_index0 lru_min_time0 sets s rand_set_idx : Nat) (d : lru_data)
    (cs : cache_system) (ha : 1 ≤ cs.associativity) (hs : s < sets)
    (hnum : d.num_lines = sets * cs.associativity) (hrange : d.num_lines < UINT32_RANGE)
    (hlen : d.access_times.length = d.num_lines)
    (hlines : cs.cache_lines.length = sets * cs.associativity) :
    (∃ o, lru_eviction_index index0 min_time0 d cs s = some o ∧ o < cs.associativity) ∧
    (∃ o gen', rand_eviction_index rand gen cs rand_set_idx = some (o, gen') ∧
      o < cs.associativity) ∧
    (∃ o, lru_prefer_clean_eviction_index index0 min_time0 lru_index0 lru_min_time0 d cs s
        = some o ∧ o < cs.associativity) := by
  have hgeo : sets * cs.associativity < UINT32_RANGE := by omega
  have hlen' : d.access_times.length = sets * cs.associativity := by omega
  refine ⟨?_, ?_, ?_⟩
  · obtain ⟨o, _, hres, ho, _⟩ :=
      lru_eviction_index_spec index0 min_time0 sets s d cs ha hs hgeo hlen'
    exact ⟨o, hres, ho⟩
  · have hne : ¬ (cs.associativity = 0) := by omega
    refine ⟨(rand gen).1 % cs.associativity, (rand gen).2, ?_, Nat.mod_lt _ (by omega)⟩
    unfold rand_eviction_index
    rw [if_neg hne]
  · obtain ⟨o, ho, hres, _⟩ := lru_prefer_clean_eviction_index_initial_values index0
      min_time0 lru_index0 lru_min_time0 index0 min_time0 lru_index0 lru_min_time0 sets s d cs
      ha hs hgeo hlen' hlines
    exact ⟨o, hres, ho⟩

/-- Witness of C11: two sets of two lines, second set, with a generator whose
state is the list of the draws to come. -/
theorem eviction_index_in_range_witness :
    (∃ o, lru_eviction_index 0 0 ⟨4, 7, [1, 2, 5, 3]⟩
        ⟨2, [⟨10, CLEAN⟩, ⟨20, CLEAN⟩, ⟨30, MODIFIED⟩, ⟨40, MODIFIED⟩]⟩ 1 = some o ∧ o < 2) ∧
    (∃ o gen', rand_eviction_index (fun g : List Nat => (g.headD 0, g.tail)) [7, 4]
        ⟨2, [⟨10, CLEAN⟩, ⟨20, CLEAN⟩, ⟨30, MODIFIED⟩, ⟨40, MODIFIED⟩]⟩ 9 = some (o, gen') ∧
      o < 2) ∧
    (∃ o, lru_prefer_clean_eviction_index 0 0 0 0 ⟨4, 7, [1, 2, 5, 3]⟩
        ⟨2, [⟨10, CLEAN⟩, ⟨20, CLEAN⟩, ⟨30, MODIFIED⟩, ⟨40, MODIFIED⟩]⟩ 1 = some o ∧ o < 2) :=
  eviction_index_in_range (fun g : List Nat => (g.headD 0, g.tail)) [7, 4] 0 0 0 0 2 1 9
    ⟨4, 7, [1, 2, 5, 3]⟩ ⟨2, [⟨10, CLEAN⟩, ⟨20, CLEAN⟩, ⟨30, MODIFIED⟩, ⟨40, MODIFIED⟩]⟩
    (by decide) (by decide) (by decide) (by decide) (by decide) (by decide)

/-- C12 (amended): a policy constructed by `lru_replacement_policy_new` or
`lru_prefer_clean_replacement_policy_new` has clock 0 and a table of
`num_lines = (sets * associativity) mod 2^32` entries, all 0, and every
sequence of onAccess and selectVictim calls that returns leaves a table of that
length; when `sets * associativity` is below 2^32 that length is
`sets * associativity`, and every sequence of calls that respect the geometry
returns. -/
theorem lru_family_new_table (kind : lru_family) (sets associativity : Nat)
    (calls : List policy_call) :
    (lru_family_new kind sets associativity).current_time = 0 ∧
    (lru_family_new kind sets associativity).num_lines =
      (sets * associativity) % UINT32_RANGE ∧
    (lru_family_new kind sets associativity).access_times =
      List.replicate ((sets * associativity) % UINT32_RANGE) 0 ∧
    (lru_family_new kind sets associativity).access_times.length =
      (sets * associativity) % UINT32_RANGE ∧
    (∀ d, run_calls kind (lru_family_new kind sets associativity) calls = some d →
      d.access_times.length = (sets * associativity) % UINT32_RANGE) ∧
    (sets * associativity < UINT32_RANGE →
      (lru_family_new kind sets associativity).num_lines = sets * associativity ∧
      (lru_family_new kind sets associativity).access_times =
        List.replicate (sets * associativity) 0 ∧
      (lru_family_new kind sets associativity).access_times.length = sets * associativity ∧
      (∀ d, run_calls kind (lru_family_new kind sets associativity) calls = some d →
        d.access_times.length = sets * associativity) ∧
      (1 ≤ associativity → (∀ c ∈ calls, valid_call sets associativity c) →
        ∃ d, run_calls kind (lru_family_new kind sets associativity) calls = some d ∧
          d.access_times.length = sets * associativity)) := by
  have hclock : (lru_family_new kind sets associativity).current_time = 0 := by
    cases kind <;> rfl
  have hnum : (lru_family_new kind sets associativity).num_lines =
      (sets * associativity) % UINT32_RANGE := by
    cases kind <;> rfl
  have htable : (lru_family_new kind sets associativity).access_times =
      List.replicate ((sets * associativity) % UINT32_RANGE) 0 := by
    cases kind <;> rfl
  have hlen : (lru_family_new kind sets associativity).access_times.length =
      (sets * associativity) % UINT32_RANGE := by
    rw [htable, List.length_replicate]
  have hkeep : ∀ d, run_calls kind (lru_family_new kind sets associativity) calls = some d →
      d.access_times.length = (sets * associativity) % UINT32_RANGE := by
    intro d hd
    rw [run_calls_length kind calls _ d hd]
    exact hlen
  refine ⟨hclock, hnum, htable, hlen, hkeep, ?_⟩
  intro hgeo
  have hmod : (sets * associativity) % UINT32_RANGE = sets * associativity :=
    Nat.mod_eq_of_lt hgeo
  rw [hmod] at hnum htable hlen hkeep
  refine ⟨hnum, htable, hlen, hkeep, ?_⟩
  intro ha hvalid
  obtain ⟨d, hd⟩ := run_calls_returns kind sets associativity ha hgeo calls _ hlen hvalid
  exact ⟨d, hd, hkeep d hd⟩

/-- Witness of C12 (amended): two sets of two lines, LRU_PREFER_CLEAN, an
access that hits, a victim selection and an access that misses; and the
geometry 65537 x 65536, whose 32-bit product is 65536. -/
theorem lru_family_new_table_witness :
    (2 * 2 < UINT32_RANGE) ∧
    (lru_family_new lru_family.LRU_PREFER_CLEAN 2 2).access_times = List.replicate (2 * 2) 0 ∧
    run_calls lru_family.LRU_PREFER_CLEAN (lru_family_new lru_family.LRU_PREFER_CLEAN 2 2)
      [policy_call.on_access ⟨2, [⟨10, CLEAN⟩, ⟨20, CLEAN⟩, ⟨30, MODIFIED⟩, ⟨40, CLEAN⟩]⟩ 1 40,
       policy_call.select_victim 0 0 0 0
         ⟨2, [⟨10, CLEAN⟩, ⟨20, CLEAN⟩, ⟨30, MODIFIED⟩, ⟨40, CLEAN⟩]⟩ 1,
       policy_call.on_access ⟨2, [⟨10, CLEAN⟩, ⟨20, CLEAN⟩, ⟨30, MODIFIED⟩, ⟨50, CLEAN⟩]⟩ 1 40]
      = some ⟨4, 2, [0, 0, 0, 1]⟩ ∧
    (∀ d, run_calls lru_family.LRU_PREFER_CLEAN
        (lru_family_new lru_family.LRU_PREFER_CLEAN 2 2)
        [policy_call.on_access ⟨2, [⟨10, CLEAN⟩, ⟨20, CLEAN⟩, ⟨30, MODIFIED⟩, ⟨40, CLEAN⟩]⟩ 1 40,
         policy_call.select_victim 0 0 0 0
           ⟨2, [⟨10, CLEAN⟩, ⟨20, CLEAN⟩, ⟨30, MODIFIED⟩, ⟨40, CLEAN⟩]⟩ 1,
         policy_call.on_access ⟨2, [⟨10, CLEAN⟩, ⟨20, CLEAN⟩, ⟨30, MODIFIED⟩, ⟨50, CLEAN⟩]⟩ 1 40]
        = some d → d.access_times.length = 2 * 2) ∧
    (lru_family_new lru_family.LRU 65537 65536).access_times.length
      = (65537 * 65536) % UINT32_RANGE ∧
    (65537 * 65536) % UINT32_RANGE = 65536 :=
  ⟨by decide,
    ((lru_family_new_table lru_family.LRU_PREFER_CLEAN 2 2 []).2.2.2.2.2 (by decide)).2.1,
    by decide,
    ((lru_family_new_table lru_family.LRU_PREFER_CLEAN 2 2
      [policy_call.on_access ⟨2, [⟨10, CLEAN⟩, ⟨20, CLEAN⟩, ⟨30, MODIFIED⟩, ⟨40, CLEAN⟩]⟩ 1 40,
       policy_call.select_victim 0 0 0 0
         ⟨2, [⟨10, CLEAN⟩, ⟨20, CLEAN⟩, ⟨30, MODIFIED⟩, ⟨40, CLEAN⟩]⟩ 1,
       policy_call.on_access ⟨2, [⟨10, CLEAN⟩, ⟨20, CLEAN⟩, ⟨30, MODIFIED⟩, ⟨50, CLEAN⟩]⟩ 1 40]
      ).2.2.2.2.2 (by decide)).2.2.2.1,
    (lru_family_new_table lru_family.LRU 65537 65536 []).2.2.2.1,
    by decide⟩

/-- Counterexample to C12 as stated: with 65536 sets of associativity 65536 the
32-bit product `sets * associativity` wraps to 0, so both constructors build a
table of length 0 and not of length 65536 * 65536. -/
theorem lru_family_new_table_wraps :
    (lru_replacement_policy_new 65536 65536).num_lines = 0 ∧
    (lru_replacement_policy_new 65536 65536).access_times.length = 0 ∧
    (lru_replacement_policy_new 65536 65536).access_times.length ≠ 65536 * 65536 ∧
    (lru_prefer_clean_replacement_policy_new 65536 65536).access_times.length = 0 ∧
    (lru_prefer_clean_replacement_policy_new 65536 65536).access_times.length
      ≠ 65536 * 65536 := by
  refine ⟨by decide, by decide, by decide, by decide, by decide⟩

/-- C13: the RAND policy is stateless.  When `rand()` draws `r` in generator
state `gen`, `rand_eviction_index` returns `r` modulo the associativity for
every set index and every cache content of that associativity;
`rand_cache_access` leaves the generator state as it is, and so does every
sequence of accesses, after which the result is still `r` modulo the
associativity. -/
theorem rand_policy_stateless {G : Type} (rand : G → Nat × G) (gen gen' : G) (r : Nat)
    (cs acc_cs : cache_system) (set_idx acc_set_idx acc_tag : Nat) (acc : List (Nat × Nat))
    (ha : 1 ≤ cs.associativity) (hdraw : rand gen = (r, gen')) :
    rand_eviction_index rand gen cs set_idx = some (r % cs.associativity, gen') ∧
    rand_cache_access gen acc_cs acc_set_idx acc_tag = gen ∧
    run_rand_accesses acc_cs gen acc = gen ∧
    rand_eviction_index rand (run_rand_accesses acc_cs gen acc) cs set_idx
      = some (r % cs.associativity, gen') := by
  have hne : ¬ (cs.associativity = 0) := by omega
  have hres : rand_eviction_index rand gen cs set_idx = some (r % cs.associativity, gen') := by
    unfold rand_eviction_index
    rw [if_neg hne, hdraw]
  have hrun : ∀ (l : List (Nat × Nat)) (g : G), run_rand_accesses acc_cs g l = g := by
    intro l
    induction l with
    | nil => intro g; rfl
    | cons x rest ih =>
      intro g
      obtain ⟨x1, x2⟩ := x
      simp only [run_rand_accesses, rand_cache_access]
      exact ih g
  refine ⟨hres, rfl, hrun acc gen, ?_⟩
  rw [hrun acc gen]
  exact hres

/-- Witness of C13: the generator state is the list of the draws to come; the
draw 7 on associativity 4 gives offset 3, before and after two accesses. -/
theorem rand_policy_stateless_witness :
    rand_eviction_index (fun g : List Nat => (g.headD 0, g.tail)) [7, 4]
      ⟨4, [⟨10, CLEAN⟩, ⟨20, CLEAN⟩, ⟨30, MODIFIED⟩, ⟨40, CLEAN⟩]⟩ 0 = some (7 % 4, [4]) ∧
    rand_cache_access [7, 4] ⟨4, []⟩ 0 10 = [7, 4] ∧
    run_rand_accesses ⟨4, []⟩ [7, 4] [(0, 10), (0, 99)] = [7, 4] ∧
    rand_eviction_index (fun g : List Nat => (g.headD 0, g.tail))
      (run_rand_accesses ⟨4, []⟩ [7, 4] [(0, 10), (0, 99)])
      ⟨4, [⟨10, CLEAN⟩, ⟨20, CLEAN⟩, ⟨30, MODIFIED⟩, ⟨40, CLEAN⟩]⟩ 0 = some (7 % 4, [4]) :=
  rand_policy_stateless (fun g : List Nat => (g.headD 0, g.tail)) [7, 4] [4] 7
    ⟨4, [⟨10, CLEAN⟩, ⟨20, CLEAN⟩, ⟨30, MODIFIED⟩, ⟨40, CLEAN⟩]⟩ ⟨4, []⟩ 0 0 10
    [(0, 10), (0, 99)] (by decide) rfl

/-! ## Claims on purity, refinement and the uninitialised locals -/

/-- C14: for the LRU and the LRU_PREFER_CLEAN policy a call of the
eviction-index function on a valid set returns an offset and hands back the
`lru_data` (clock and every timestamp) and the cache (tag and status of every
line) as they were, so a second call on the state left by the first, whatever
the indeterminate initial values of its locals are, returns the same offset. -/
theorem eviction_index_pure
    (index0 min_time0 lru_index0 lru_min_time0 index1 min_time1 lru_index1 lru_min_time1 : Nat)
    (sets s : Nat) (d : lru_data) (cs : cache_system) (ha : 1 ≤ cs.associativity)
    (hs : s < sets) (hgeo : sets * cs.associativity < UINT32_RANGE)
    (hlen : d.access_times.length = sets * cs.associativity)
    (hlines : cs.cache_lines.length = sets * cs.associativity) :
    (∃ o d1 cs1, lru_eviction_index_call index0 min_time0 d cs s = some (o, d1, cs1) ∧
      d1 = d ∧ cs1 = cs ∧
      lru_eviction_index_call index1 min_time1 d1 cs1 s = some (o, d1, cs1)) ∧
    (∃ o d1 cs1, lru_prefer_clean_eviction_index_call index0 min_time0 lru_index0
        lru_min_time0 d cs s = some (o, d1, cs1) ∧
      d1 = d ∧ cs1 = cs ∧
      lru_prefer_clean_eviction_index_call index1 min_time1 lru_index1 lru_min_time1 d1 cs1 s
        = some (o, d1, cs1)) := by
  constructor
  · obtain ⟨o, _, h0, h1⟩ := lru_eviction_index_agree index0 min_time0 index1 min_time1
      sets s d d cs cs ha rfl hs hgeo hlen hlen (fun _ _ => rfl)
    refine ⟨o, d, cs, ?_, rfl, rfl, ?_⟩
    · simp only [lru_eviction_index_call, h0]
    · simp only [lru_eviction_index_call, h1]
  · obtain ⟨o, _, h0, h1⟩ := lru_prefer_clean_eviction_index_initial_values index0 min_time0
      lru_index0 lru_min_time0 index1 min_time1 lru_index1 lru_min_time1 sets s d cs ha hs
      hgeo hlen hlines
    refine ⟨o, d, cs, ?_, rfl, rfl, ?_⟩
    · simp only [lru_prefer_clean_eviction_index_call, h0]
    · simp only [lru_prefer_clean_eviction_index_call, h1]

/-- Witness of C14: one set of four lines with timestamps 5, 2, 3, 4, line 1
MODIFIED. -/
theorem eviction_index_pure_witness :
    lru_eviction_index_call 0 0 ⟨4, 5, [5, 2, 3, 4]⟩
        ⟨4, [⟨10, CLEAN⟩, ⟨20, MODIFIED⟩, ⟨30, CLEAN⟩, ⟨40, CLEAN⟩]⟩ 0
      = some (1, ⟨4, 5, [5, 2, 3, 4]⟩,
          ⟨4, [⟨10, CLEAN⟩, ⟨20, MODIFIED⟩, ⟨30, CLEAN⟩, ⟨40, CLEAN⟩]⟩) ∧
    lru_prefer_clean_eviction_index_call 0 0 0 0 ⟨4, 5, [5, 2, 3, 4]⟩
        ⟨4, [⟨10, CLEAN⟩, ⟨20, MODIFIED⟩, ⟨30, CLEAN⟩, ⟨40, CLEAN⟩]⟩ 0
      = some (2, ⟨4, 5, [5, 2, 3, 4]⟩,
          ⟨4, [⟨10, CLEAN⟩, ⟨20, MODIFIED⟩, ⟨30, CLEAN⟩, ⟨40, CLEAN⟩]⟩) ∧
    ((∃ o d1 cs1, lru_eviction_index_call 0 0 ⟨4, 5, [5, 2, 3, 4]⟩
        ⟨4, [⟨10, CLEAN⟩, ⟨20, MODIFIED⟩, ⟨30, CLEAN⟩, ⟨40, CLEAN⟩]⟩ 0 = some (o, d1, cs1) ∧
      d1 = ⟨4, 5, [5, 2, 3, 4]⟩ ∧
      cs1 = ⟨4, [⟨10, CLEAN⟩, ⟨20, MODIFIED⟩, ⟨30, CLEAN⟩, ⟨40, CLEAN⟩]⟩ ∧
      lru_eviction_index_call 9 1 d1 cs1 0 = some (o, d1, cs1)) ∧
    (∃ o d1 cs1, lru_prefer_clean_eviction_index_call 0 0 0 0 ⟨4, 5, [5, 2, 3, 4]⟩
        ⟨4, [⟨10, CLEAN⟩, ⟨20, MODIFIED⟩, ⟨30, CLEAN⟩, ⟨40, CLEAN⟩]⟩ 0 = some (o, d1, cs1) ∧
      d1 = ⟨4, 5, [5, 2, 3, 4]⟩ ∧
      cs1 = ⟨4, [⟨10, CLEAN⟩, ⟨20, MODIFIED⟩, ⟨30, CLEAN⟩, ⟨40, CLEAN⟩]⟩ ∧
      lru_prefer_clean_eviction_index_call 9 1 8 2 d1 cs1 0 = some (o, d1, cs1))) :=
  ⟨by decide, by decide,
    eviction_index_pure 0 0 0 0 9 1 8 2 1 0 ⟨4, 5, [5, 2, 3, 4]⟩
      ⟨4, [⟨10, CLEAN⟩, ⟨20, MODIFIED⟩, ⟨30, CLEAN⟩, ⟨40, CLEAN⟩]⟩ (by decide) (by decide)
      (by decide) (by decide) (by decide)⟩

/-- C15: for every state, cache, set index and tag,
`lru_prefer_clean_cache_access` returns exactly what `lru_cache_access` returns
(the same clock and timestamps, or the same failure), and the result is the
same on every cache with the same associativity and the same tags, whatever the
status of the lines is. -/
theorem lru_prefer_clean_cache_access_eq (d : lru_data) (cs cs' : cache_system)
    (set_idx tag : Nat) (hassoc : cs'.associativity = cs.associativity)
    (htags : cs'.cache_lines.map cache_line.tag = cs.cache_lines.map cache_line.tag) :
    lru_prefer_clean_cache_access d cs set_idx tag = lru_cache_access d cs set_idx tag ∧
    lru_prefer_clean_cache_access d cs' set_idx tag = lru_cache_access d cs set_idx tag := by
  refine ⟨rfl, ?_⟩
  unfold lru_prefer_clean_cache_access lru_cache_access
  have hb : set_begin cs' set_idx = set_begin cs set_idx := by
    unfold set_begin; rw [hassoc]
  have he : set_end cs' set_idx = set_end cs set_idx := by
    unfold set_end; rw [hassoc]
  simp only [hb, he]
  rw [lru_cache_access_loop_tags cs'.cache_lines cs.cache_lines tag _ d.access_times htags]

/-- Witness of C15: the same tags with different status, a hit on the second
line of the second set. -/
theorem lru_prefer_clean_cache_access_eq_witness :
    lru_prefer_clean_cache_access ⟨4, 7, [1, 2, 5, 7]⟩
        ⟨2, [⟨10, CLEAN⟩, ⟨20, CLEAN⟩, ⟨30, MODIFIED⟩, ⟨40, INVALID⟩]⟩ 1 40
      = some ⟨4, 8, [1, 2, 5, 8]⟩ ∧
    (lru_prefer_clean_cache_access ⟨4, 7, [1, 2, 5, 7]⟩
        ⟨2, [⟨10, CLEAN⟩, ⟨20, CLEAN⟩, ⟨30, MODIFIED⟩, ⟨40, INVALID⟩]⟩ 1 40
      = lru_cache_access ⟨4, 7, [1, 2, 5, 7]⟩
        ⟨2, [⟨10, CLEAN⟩, ⟨20, CLEAN⟩, ⟨30, MODIFIED⟩, ⟨40, INVALID⟩]⟩ 1 40 ∧
    lru_prefer_clean_cache_access ⟨4, 7, [1, 2, 5, 7]⟩
        ⟨2, [⟨10, MODIFIED⟩, ⟨20, INVALID⟩, ⟨30, CLEAN⟩, ⟨40, MODIFIED⟩]⟩ 1 40
      = lru_cache_access ⟨4, 7, [1, 2, 5, 7]⟩
        ⟨2, [⟨10, CLEAN⟩, ⟨20, CLEAN⟩, ⟨30, MODIFIED⟩, ⟨40, INVALID⟩]⟩ 1 40) :=
  ⟨by decide, lru_prefer_clean_cache_access_eq ⟨4, 7, [1, 2, 5, 7]⟩
    ⟨2, [⟨10, CLEAN⟩, ⟨20, CLEAN⟩, ⟨30, MODIFIED⟩, ⟨40, INVALID⟩]⟩
    ⟨2, [⟨10, MODIFIED⟩, ⟨20, INVALID⟩, ⟨30, CLEAN⟩, ⟨40, MODIFIED⟩]⟩ 1 40 (by decide)
    (by decide)⟩

/-- C16: with the initial values of the locals `min_time` and `index` as
arbitrary inputs, for every associativity at least 1, valid set index and
state, `lru_eviction_index` and `lru_prefer_clean_eviction_index` return an
offset of the set that is the same for every choice of those initial values
(for LRU_PREFER_CLEAN also of the locals of the nested call). -/
theorem uninitialised_locals_masked
    (index0 min_time0 lru_index0 lru_min_time0 index1 min_time1 lru_index1 lru_min_time1 : Nat)
    (sets s : Nat) (d : lru_data) (cs : cache_system) (ha : 1 ≤ cs.associativity)
    (hs : s < sets) (hgeo : sets * cs.associativity < UINT32_RANGE)
    (hlen : d.access_times.length = sets * cs.associativity)
    (hlines : cs.cache_lines.length = sets * cs.associativity) :
    (∃ o, o < cs.associativity ∧ lru_eviction_index index0 min_time0 d cs s = some o ∧
      lru_eviction_index index1 min_time1 d cs s = some o) ∧
    (∃ o, o < cs.associativity ∧
      lru_prefer_clean_eviction_index index0 min_time0 lru_index0 lru_min_time0 d cs s
        = some o ∧
      lru_prefer_clean_eviction_index index1 min_time1 lru_index1 lru_min_time1 d cs s
        = some o) :=
  ⟨lru_eviction_index_agree index0 min_time0 index1 min_time1 sets s d d cs cs ha rfl hs hgeo
      hlen hlen (fun _ _ => rfl),
    lru_prefer_clean_eviction_index_initial_values index0 min_time0 lru_index0 lru_min_time0
      index1 min_time1 lru_index1 lru_min_time1 sets s d cs ha hs hgeo hlen hlines⟩

/-- Witness of C16: initial values 0 against initial values far above and far
below every timestamp of the set. -/
theorem uninitialised_locals_masked_witness :
    (∃ o, o < 4 ∧ lru_eviction_index 0 0 ⟨4, 9, [5, 2, 3, 4]⟩
        ⟨4, [⟨10, CLEAN⟩, ⟨20, MODIFIED⟩, ⟨30, CLEAN⟩, ⟨40, CLEAN⟩]⟩ 0 = some o ∧
      lru_eviction_index 3 4294967295 ⟨4, 9, [5, 2, 3, 4]⟩
        ⟨4, [⟨10, CLEAN⟩, ⟨20, MODIFIED⟩, ⟨30, CLEAN⟩, ⟨40, CLEAN⟩]⟩ 0 = some o) ∧
    (∃ o, o < 4 ∧ lru_prefer_clean_eviction_index 0 0 0 0 ⟨4, 9, [5, 2, 3, 4]⟩
        ⟨4, [⟨10, CLEAN⟩, ⟨20, MODIFIED⟩, ⟨30, CLEAN⟩, ⟨40, CLEAN⟩]⟩ 0 = some o ∧
      lru_prefer_clean_eviction_index 3 4294967295 2 1 ⟨4, 9, [5, 2, 3, 4]⟩
        ⟨4, [⟨10, CLEAN⟩, ⟨20, MODIFIED⟩, ⟨30, CLEAN⟩, ⟨40, CLEAN⟩]⟩ 0 = some o) :=
  uninitialised_locals_masked 0 0 0 0 3 4294967295 2 1 1 0 ⟨4, 9, [5, 2, 3, 4]⟩
    ⟨4, [⟨10, CLEAN⟩, ⟨20, MODIFIED⟩, ⟨30, CLEAN⟩, ⟨40, CLEAN⟩]⟩ (by decide) (by decide)
    (by decide) (by decide) (by decide)

/-! ## Claims on bounds and invariants of the table -/

/-! ## The scans with visits compute the scans -/

theorem lru_cache_access_loop_visits_snd (lines : List cache_line) (tag now : Nat)
    (times : List Nat) :
    ∀ (n i : Nat), (lru_cache_access_loop_visits lines tag now n i times).2 =
      lru_cache_access_loop lines tag now n i times := by
  intro n
  induction n with
  | zero => intro i; rfl
  | succ n ih =>
    intro i
    rw [lru_cache_access_loop_visits, lru_cache_access_loop]
    cases lines[i]? with
    | none => rfl
    | some line =>
      simp only
      by_cases hmatch : line.tag = tag
      · rw [if_pos hmatch, if_pos hmatch]
        by_cases hi : i < times.length
        · rw [if_pos hi, if_pos hi]
        · rw [if_neg hi, if_neg hi]
      · rw [if_neg hmatch, if_neg hmatch]
        exact ih (i + 1)

theorem lru_cache_access_loop_visits_mem (lines : List cache_line) (tag now : Nat)
    (times : List Nat) :
    ∀ (n i k : Nat), k ∈ (lru_cache_access_loop_visits lines tag now n i times).1 →
      i ≤ k ∧ k < i + n := by
  intro n
  induction n with
  | zero => intro i k hk; simp [lru_cache_access_loop_visits] at hk
  | succ n ih =>
    intro i k hk
    rw [lru_cache_access_loop_visits] at hk
    have hone : k ∈ [i] → i ≤ k ∧ k < i + (n + 1) := by
      intro h
      have := List.mem_singleton.mp h
      omega
    cases hget : lines[i]? with
    | none => rw [hget] at hk; exact hone hk
    | some line =>
      rw [hget] at hk
      simp only at hk
      by_cases hmatch : line.tag = tag
      · rw [if_pos hmatch] at hk
        by_cases hi : i < times.length
        · rw [if_pos hi] at hk; exact hone hk
        · rw [if_neg hi] at hk; exact hone hk
      · rw [if_neg hmatch] at hk
        rcases List.mem_cons.mp hk with h | h
        · omega
        · have := ih (i + 1) k h
          omega

theorem lru_cache_access_visits_snd (d : lru_data) (cs : cache_system) (set_idx tag : Nat) :
    (lru_cache_access_visits d cs set_idx tag).2 = lru_cache_access d cs set_idx tag := by
  unfold lru_cache_access_visits lru_cache_access
  have h := lru_cache_access_loop_visits_snd cs.cache_lines tag
    ((d.current_time + 1) % UINT32_RANGE) d.access_times
    (set_end cs set_idx - set_begin cs set_idx) (set_begin cs set_idx)
  simp only
  rw [← h]
  rcases lru_cache_access_loop_visits cs.cache_lines tag
    ((d.current_time + 1) % UINT32_RANGE) (set_end cs set_idx - set_begin cs set_idx)
    (set_begin cs set_idx) d.access_times with ⟨visited, _ | times⟩ <;> rfl

theorem lru_cache_access_visits_mem (d : lru_data) (cs : cache_system) (set_idx tag k : Nat)
    (hk : k ∈ (lru_cache_access_visits d cs set_idx tag).1) : k ∈ loop_indices cs set_idx := by
  unfold lru_cache_access_visits at hk
  have h := lru_cache_access_loop_visits_mem cs.cache_lines tag
    ((d.current_time + 1) % UINT32_RANGE) d.access_times
    (set_end cs set_idx - set_begin cs set_idx) (set_begin cs set_idx) k
  simp only at hk
  unfold loop_indices
  rw [List.mem_range'_1]
  apply h
  rcases hr : lru_cache_access_loop_visits cs.cache_lines tag
    ((d.current_time + 1) % UINT32_RANGE) (set_end cs set_idx - set_begin cs set_idx)
    (set_begin cs set_idx) d.access_times with ⟨visited, _ | times⟩ <;>
    (rw [hr] at hk; exact hk)

theorem lru_eviction_loop_visits_snd (times : List Nat) :
    ∀ (n i : Nat) (st : scan_state), (lru_eviction_loop_visits times n i st).2 =
      lru_eviction_loop times n i st := by
  intro n
  induction n with
  | zero => intro i st; rfl
  | succ n ih =>
    intro i st
    rw [lru_eviction_loop_visits, lru_eviction_loop]
    cases times[i]? with
    | none => rfl
    | some t =>
      simp only
      split
      · exact ih (i + 1) _
      · exact ih (i + 1) _

/-- The loop of `lru_eviction_index` visits every position from `i` on, as far
as the table reaches. -/
theorem lru_eviction_loop_visits_fst (times : List Nat) :
    ∀ (n i : Nat) (st : scan_state), i + n ≤ times.length →
      (lru_eviction_loop_visits times n i st).1 = List.range' i n := by
  intro n
  induction n with
  | zero => intro i st _; rfl
  | succ n ih =>
    intro i st hlen
    have hi : i < times.length := by omega
    rw [lru_eviction_loop_visits, List.getElem?_eq_getElem hi]
    simp only
    split
    · simp only [visit, List.range'_succ]
      rw [ih (i + 1) _ (by omega)]
    · simp only [visit, List.range'_succ]
      rw [ih (i + 1) _ (by omega)]

theorem lru_eviction_index_visits_snd (index0 min_time0 : Nat) (d : lru_data)
    (cs : cache_system) (set_idx : Nat) :
    (lru_eviction_index_visits index0 min_time0 d cs set_idx).2 =
      lru_eviction_index index0 min_time0 d cs set_idx := by
  unfold lru_eviction_index_visits lru_eviction_index
  have h := lru_eviction_loop_visits_snd d.access_times
    (set_end cs set_idx - set_begin cs set_idx) (set_begin cs set_idx)
    { min_time_set := false, min_time := min_time0, index := index0 }
  rw [← h]
  rcases lru_eviction_loop_visits d.access_times (set_end cs set_idx - set_begin cs set_idx)
    (set_begin cs set_idx) { min_time_set := false, min_time := min_time0, index := index0 }
    with ⟨visited, _ | st⟩ <;> rfl

theorem lru_eviction_index_visits_fst (index0 min_time0 : Nat) (d : lru_data)
    (cs : cache_system) (set_idx : Nat)
    (hlen : set_begin cs set_idx + (set_end cs set_idx - set_begin cs set_idx)
      ≤ d.access_times.length) :
    (lru_eviction_index_visits index0 min_time0 d cs set_idx).1 = loop_indices cs set_idx := by
  unfold lru_eviction_index_visits loop_indices
  have h := lru_eviction_loop_visits_fst d.access_times
    (set_end cs set_idx - set_begin cs set_idx) (set_begin cs set_idx)
    { min_time_set := false, min_time := min_time0, index := index0 } hlen
  rw [← h]
  rcases lru_eviction_loop_visits d.access_times (set_end cs set_idx - set_begin cs set_idx)
    (set_begin cs set_idx) { min_time_set := false, min_time := min_time0, index := index0 }
    with ⟨visited, _ | st⟩ <;> rfl

theorem lru_prefer_clean_eviction_loop_visits_snd (lines : List cache_line)
    (times : List Nat) :
    ∀ (n i : Nat) (st : scan_state),
      (lru_prefer_clean_eviction_loop_visits lines times n i st).2 =
        lru_prefer_clean_eviction_loop lines times n i st := by
  intro n
  induction n with
  | zero => intro i st; rfl
  | succ n ih =>
    intro i st
    rw [lru_prefer_clean_eviction_loop_visits, lru_prefer_clean_eviction_loop]
    cases lines[i]? with
    | none => rfl
    | some line =>
      simp only
      by_cases hmod : line.status ≠ MODIFIED
      · rw [if_pos hmod, if_pos hmod]
        cases times[i]? with
        | none => rfl
        | some t =>
          simp only
          split
          · exact ih (i + 1) _
          · exact ih (i + 1) _
      · rw [if_neg hmod, if_neg hmod]
        exact ih (i + 1) _

/-- The loop of `lru_prefer_clean_eviction_index` visits every position from
`i` on, as far as the cache and the table reach. -/
theorem lru_prefer_clean_eviction_loop_visits_fst (lines : List cache_line)
    (times : List Nat) :
    ∀ (n i : Nat) (st : scan_state), i + n ≤ lines.length → i + n ≤ times.length →
      (lru_prefer_clean_eviction_loop_visits lines times n i st).1 = List.range' i n := by
  intro n
  induction n with
  | zero => intro i st _ _; rfl
  | succ n ih =>
    intro i st hlines hlen
    have hi : i < times.length := by omega
    have hi2 : i < lines.length := by omega
    rw [lru_prefer_clean_eviction_loop_visits, List.getElem?_eq_getElem hi2]
    simp only
    by_cases hmod : lines[i].status ≠ MODIFIED
    · rw [if_pos hmod, List.getElem?_eq_getElem hi]
      simp only
      split
      · simp only [visit, List.range'_succ]
        rw [ih (i + 1) _ (by omega) (by omega)]
      · simp only [visit, List.range'_succ]
        rw [ih (i + 1) _ (by omega) (by omega)]
    · rw [if_neg hmod]
      simp only [visit, List.range'_succ]
      rw [ih (i + 1) _ (by omega) (by omega)]

theorem lru_prefer_clean_eviction_index_visits_snd
    (index0 min_time0 lru_index0 lru_min_time0 : Nat) (d : lru_data) (cs : cache_system)
    (set_idx : Nat) :
    (lru_prefer_clean_eviction_index_visits index0 min_time0 lru_index0 lru_min_time0 d cs
      set_idx).2 =
      lru_prefer_clean_eviction_index index0 min_time0 lru_index0 lru_min_time0 d cs
        set_idx := by
  unfold lru_prefer_clean_eviction_index_visits lru_prefer_clean_eviction_index
  have h := lru_prefer_clean_eviction_loop_visits_snd cs.cache_lines d.access_times
    (set_end cs set_idx - set_begin cs set_idx) (set_begin cs set_idx)
    { min_time_set := false, min_time := min_time0, index := index0 }
  rw [← h]
  rcases lru_prefer_clean_eviction_loop_visits cs.cache_lines d.access_times
    (set_end cs set_idx - set_begin cs set_idx) (set_begin cs set_idx)
    { min_time_set := false, min_time := min_time0, index := index0 }
    with ⟨visited, _ | st⟩
  · rfl
  · simp only
    split
    · exact lru_eviction_index_visits_snd lru_index0 lru_min_time0 d cs set_idx
    · split <;> rfl

theorem lru_prefer_clean_eviction_index_visits_mem
    (index0 min_time0 lru_index0 lru_min_time0 : Nat) (d : lru_data) (cs : cache_system)
    (set_idx : Nat)
    (hlines : set_begin cs set_idx + (set_end cs set_idx - set_begin cs set_idx)
      ≤ cs.cache_lines.length)
    (hlen : set_begin cs set_idx + (set_end cs set_idx - set_begin cs set_idx)
      ≤ d.access_times.length) (k : Nat) :
    k ∈ (lru_prefer_clean_eviction_index_visits index0 min_time0 lru_index0 lru_min_time0 d
      cs set_idx).1 ↔ k ∈ loop_indices cs set_idx := by
  have hnested := lru_eviction_index_visits_fst lru_index0 lru_min_time0 d cs set_idx hlen
  have h := lru_prefer_clean_eviction_loop_visits_fst cs.cache_lines d.access_times
    (set_end cs set_idx - set_begin cs set_idx) (set_begin cs set_idx)
    { min_time_set := false, min_time := min_time0, index := index0 } hlines hlen
  unfold lru_prefer_clean_eviction_index_visits
  rw [hnested]
  unfold loop_indices
  rw [← h]
  rcases lru_prefer_clean_eviction_loop_visits cs.cache_lines d.access_times
    (set_end cs set_idx - set_begin cs set_idx) (set_begin cs set_idx)
    { min_time_set := false, min_time := min_time0, index := index0 }
    with ⟨visited, _ | st⟩
  · exact Iff.rfl
  · simp only
    split
    · simp only [List.mem_append, or_self]
    · split <;> exact Iff.rfl

/-- Whenever the loop of `lru_eviction_index` returns, every position of the
loop variable was inside the table: a position outside makes the scan fail. -/
theorem lru_eviction_loop_reads (times : List Nat) :
    ∀ (n i : Nat) (st st' : scan_state), lru_eviction_loop times n i st = some st' →
      ∀ k, i ≤ k → k < i + n → k < times.length := by
  intro n
  induction n with
  | zero => intro i st st' _ k hk1 hk2; omega
  | succ n ih =>
    intro i st st' h k hk1 hk2
    rw [lru_eviction_loop] at h
    cases hget : times[i]? with
    | none => rw [hget] at h; exact absurd h (by simp)
    | some t =>
      have hi : i < times.length := (List.getElem?_eq_some.mp hget).1
      rw [hget] at h
      simp only at h
      rcases Nat.eq_or_lt_of_le hk1 with hk | hk
      · omega
      · split at h
        · exact ih (i + 1) _ st' h k hk (by omega)
        · exact ih (i + 1) _ st' h k hk (by omega)

/-- The first position of the set is visited by the loop of `lru_cache_access`
whenever the loop runs at all. -/
theorem lru_cache_access_loop_visits_first (lines : List cache_line) (tag now : Nat)
    (times : List Nat) (n i : Nat) :
    i ∈ (lru_cache_access_loop_visits lines tag now (n + 1) i times).1 := by
  rw [lru_cache_access_loop_visits]
  cases lines[i]? with
  | none => exact List.mem_singleton.mpr rfl
  | some line =>
    simp only
    by_cases hmatch : line.tag = tag
    · rw [if_pos hmatch]
      by_cases hi : i < times.length
      · rw [if_pos hi]; exact List.mem_singleton.mpr rfl
      · rw [if_neg hi]; exact List.mem_singleton.mpr rfl
    · rw [if_neg hmatch]
      exact List.mem_cons_self _ _

/-- Whenever `lru_eviction_index` returns, on any table, every position of the
loop variable is inside that table. -/
theorem lru_eviction_index_reads (index0 min_time0 : Nat) (d : lru_data) (cs : cache_system)
    (set_idx o : Nat) (h : lru_eviction_index index0 min_time0 d cs set_idx = some o) :
    ∀ i ∈ loop_indices cs set_idx, i < d.access_times.length := by
  intro i hi
  unfold loop_indices at hi
  obtain ⟨h1, h2⟩ := List.mem_range'_1.mp hi
  unfold lru_eviction_index at h
  cases hloop : lru_eviction_loop d.access_times (set_end cs set_idx - set_begin cs set_idx)
      (set_begin cs set_idx) { min_time_set := false, min_time := min_time0, index := index0 }
    with
  | none => rw [hloop] at h; exact absurd h (by simp)
  | some st => exact lru_eviction_loop_reads d.access_times _ _ _ st hloop i h1 h2

/-- C17: for a policy whose table has the `num_lines = sets * associativity`
entries of its construction, with `sets * associativity` below 2^32, and every
set index `s` below `sets`, the 32-bit loop bounds are the exact products
`s * associativity` and `(s+1) * associativity`, and every position `i` at which
the loop body of `lru_cache_access`, `lru_eviction_index` and
`lru_prefer_clean_eviction_index` runs is below `num_lines` and satisfies
`i / associativity = s`: the two eviction scans visit exactly the positions of
set `s`, the access scan visits positions of set `s` from the first one on, and
all three functions return. -/
theorem scans_inside_table (index0 min_time0 lru_index0 lru_min_time0 sets s tag : Nat)
    (d : lru_data) (cs : cache_system) (hs : s < sets)
    (hgeo : sets * cs.associativity < UINT32_RANGE)
    (hnum : d.num_lines = sets * cs.associativity)
    (hlen : d.access_times.length = d.num_lines)
    (hlines : cs.cache_lines.length = sets * cs.associativity) :
    (lru_replacement_policy_new sets cs.associativity).num_lines = sets * cs.associativity ∧
    set_begin cs s = s * cs.associativity ∧ set_end cs s = (s + 1) * cs.associativity ∧
    (s + 1) * cs.associativity < UINT32_RANGE ∧
    (∀ i ∈ loop_indices cs s, i < d.num_lines ∧ i / cs.associativity = s) ∧
    (∃ d', lru_cache_access d cs s tag = some d') ∧
    (1 ≤ cs.associativity →
      (∃ o, lru_eviction_index index0 min_time0 d cs s = some o) ∧
      (∃ o, lru_prefer_clean_eviction_index index0 min_time0 lru_index0 lru_min_time0 d cs s
        = some o)) ∧
    ((lru_cache_access_visits d cs s tag).2 = lru_cache_access d cs s tag ∧
      (∀ i ∈ (lru_cache_access_visits d cs s tag).1,
        i < d.num_lines ∧ i / cs.associativity = s) ∧
      (1 ≤ cs.associativity →
        s * cs.associativity ∈ (lru_cache_access_visits d cs s tag).1)) ∧
    ((lru_eviction_index_visits index0 min_time0 d cs s).2 =
        lru_eviction_index index0 min_time0 d cs s ∧
      (lru_eviction_index_visits index0 min_time0 d cs s).1 =
        List.range' (s * cs.associativity) cs.associativity ∧
      (∀ i ∈ (lru_eviction_index_visits index0 min_time0 d cs s).1,
        i < d.num_lines ∧ i / cs.associativity = s)) ∧
    ((lru_prefer_clean_eviction_index_visits index0 min_time0 lru_index0 lru_min_time0 d cs
          s).2 =
        lru_prefer_clean_eviction_index index0 min_time0 lru_index0 lru_min_time0 d cs s ∧
      (∀ i, i ∈ (lru_prefer_clean_eviction_index_visits index0 min_time0 lru_index0
          lru_min_time0 d cs s).1 ↔
        i ∈ List.range' (s * cs.associativity) cs.associativity) ∧
      (∀ i ∈ (lru_prefer_clean_eviction_index_visits index0 min_time0 lru_index0
          lru_min_time0 d cs s).1,
        i < d.num_lines ∧ i / cs.associativity = s)) ∧
    (∀ (d' : lru_data) (o : Nat), lru_eviction_index index0 min_time0 d' cs s = some o →
      ∀ i, s * cs.associativity ≤ i → i < (s + 1) * cs.associativity →
        i < d'.access_times.length) := by
  obtain ⟨hb, hn, hle⟩ := set_bounds cs sets s hs hgeo
  have hlen' : d.access_times.length = sets * cs.associativity := by omega
  have hsucc : (s + 1) * cs.associativity = s * cs.associativity + cs.associativity := by ring
  have he : set_end cs s = (s + 1) * cs.associativity := by
    rcases Nat.eq_zero_or_pos cs.associativity with h0 | hpos
    · simp [set_end, h0]
    · have hge : set_begin cs s ≤ set_end cs s := by
        by_contra hlt
        have : set_end cs s - set_begin cs s = 0 := by omega
        omega
      omega
  have hloop : loop_indices cs s = List.range' (s * cs.associativity) cs.associativity := by
    unfold loop_indices
    rw [hn, hb]
  have hidx : ∀ i ∈ loop_indices cs s, i < d.num_lines ∧ i / cs.associativity = s := by
    intro i hi
    rw [hloop] at hi
    obtain ⟨h1, h2⟩ := List.mem_range'_1.mp hi
    exact ⟨by omega, Nat.div_eq_of_lt_le h1 (by omega)⟩
  have hin1 : set_begin cs s + (set_end cs s - set_begin cs s) ≤ d.access_times.length := by
    rw [hn, hb]; omega
  have hin2 : set_begin cs s + (set_end cs s - set_begin cs s) ≤ cs.cache_lines.length := by
    rw [hn, hb]; omega
  have hev := lru_eviction_index_visits_fst index0 min_time0 d cs s hin1
  have hpc := lru_prefer_clean_eviction_index_visits_mem index0 min_time0 lru_index0
    lru_min_time0 d cs s hin2 hin1
  refine ⟨?_, hb, he, by omega, hidx, ?_, ?_, ⟨?_, ?_, ?_⟩, ⟨?_, ?_, ?_⟩, ⟨?_, ?_, ?_⟩, ?_⟩
  · simp only [lru_replacement_policy_new]
    exact Nat.mod_eq_of_lt hgeo
  · obtain ⟨d', hres, _⟩ := lru_cache_access_spec sets s tag d cs hs hgeo hlen' hlines
    exact ⟨d', hres⟩
  · intro ha
    obtain ⟨o, _, hres, _⟩ :=
      lru_eviction_index_spec index0 min_time0 sets s d cs ha hs hgeo hlen'
    obtain ⟨o', _, hres', _⟩ := lru_prefer_clean_eviction_index_initial_values index0
      min_time0 lru_index0 lru_min_time0 index0 min_time0 lru_index0 lru_min_time0 sets s d cs
      ha hs hgeo hlen' hlines
    exact ⟨⟨o, hres⟩, ⟨o', hres'⟩⟩
  · exact lru_cache_access_visits_snd d cs s tag
  · intro i hi
    exact hidx i (lru_cache_access_visits_mem d cs s tag i hi)
  · intro ha
    obtain ⟨n, hn1⟩ : ∃ n, set_end cs s - set_begin cs s = n + 1 :=
      ⟨cs.associativity - 1, by omega⟩
    have hfirst := lru_cache_access_loop_visits_first cs.cache_lines tag
      ((d.current_time + 1) % UINT32_RANGE) d.access_times n (set_begin cs s)
    unfold lru_cache_access_visits
    simp only
    rw [hn1]
    rw [hb] at hfirst ⊢
    rcases hr : lru_cache_access_loop_visits cs.cache_lines tag
      ((d.current_time + 1) % UINT32_RANGE) (n + 1) (s * cs.associativity) d.access_times
      with ⟨visited, _ | times⟩ <;>
      (rw [hr] at hfirst; exact hfirst)
  · exact lru_eviction_index_visits_snd index0 min_time0 d cs s
  · rw [hev, hloop]
  · intro i hi
    rw [hev] at hi
    exact hidx i hi
  · exact lru_prefer_clean_eviction_index_visits_snd index0 min_time0 lru_index0
      lru_min_time0 d cs s
  · intro i
    rw [← hloop]
    exact hpc i
  · intro i hi
    exact hidx i ((hpc i).mp hi)
  · intro d' o hres i h1 h2
    apply lru_eviction_index_reads index0 min_time0 d' cs s o hres i
    rw [hloop, List.mem_range'_1]
    omega

/-- Witness of C17: three sets of two lines, last set.  The eviction scans
visit the positions 4 and 5; the access for the tag 6 visits 4 and 5, the
access for the tag 5 stops at position 4. -/
theorem scans_inside_table_witness :
    lru_eviction_index_visits 0 0 (lru_replacement_policy_new 3 2)
      ⟨2, [⟨1, CLEAN⟩, ⟨2, CLEAN⟩, ⟨3, CLEAN⟩, ⟨4, CLEAN⟩, ⟨5, CLEAN⟩, ⟨6, CLEAN⟩]⟩ 2
      = ([4, 5], some 0) ∧
    lru_prefer_clean_eviction_index_visits 0 0 0 0 (lru_replacement_policy_new 3 2)
      ⟨2, [⟨1, CLEAN⟩, ⟨2, CLEAN⟩, ⟨3, CLEAN⟩, ⟨4, CLEAN⟩, ⟨5, MODIFIED⟩, ⟨6, MODIFIED⟩]⟩ 2
      = ([4, 5, 4, 5], some 0) ∧
    lru_cache_access_visits (lru_replacement_policy_new 3 2)
      ⟨2, [⟨1, CLEAN⟩, ⟨2, CLEAN⟩, ⟨3, CLEAN⟩, ⟨4, CLEAN⟩, ⟨5, CLEAN⟩, ⟨6, CLEAN⟩]⟩ 2 6
      = ([4, 5], some ⟨6, 1, [0, 0, 0, 0, 0, 1]⟩) ∧
    lru_cache_access_visits (lru_replacement_policy_new 3 2)
      ⟨2, [⟨1, CLEAN⟩, ⟨2, CLEAN⟩, ⟨3, CLEAN⟩, ⟨4, CLEAN⟩, ⟨5, CLEAN⟩, ⟨6, CLEAN⟩]⟩ 2 5
      = ([4], some ⟨6, 1, [0, 0, 0, 0, 1, 0]⟩) ∧
    set_begin ⟨2, [⟨1, CLEAN⟩, ⟨2, CLEAN⟩, ⟨3, CLEAN⟩, ⟨4, CLEAN⟩, ⟨5, CLEAN⟩, ⟨6, CLEAN⟩]⟩ 2
      = 2 * 2 ∧
    set_end ⟨2, [⟨1, CLEAN⟩, ⟨2, CLEAN⟩, ⟨3, CLEAN⟩, ⟨4, CLEAN⟩, ⟨5, CLEAN⟩, ⟨6, CLEAN⟩]⟩ 2
      = (2 + 1) * 2 ∧
    (∀ i ∈ (lru_cache_access_visits (lru_replacement_policy_new 3 2)
        ⟨2, [⟨1, CLEAN⟩, ⟨2, CLEAN⟩, ⟨3, CLEAN⟩, ⟨4, CLEAN⟩, ⟨5, CLEAN⟩, ⟨6, CLEAN⟩]⟩ 2 6).1,
      i < (lru_replacement_policy_new 3 2).num_lines ∧ i / 2 = 2) ∧
    (∀ i ∈ (lru_eviction_index_visits 0 0 (lru_replacement_policy_new 3 2)
        ⟨2, [⟨1, CLEAN⟩, ⟨2, CLEAN⟩, ⟨3, CLEAN⟩, ⟨4, CLEAN⟩, ⟨5, CLEAN⟩, ⟨6, CLEAN⟩]⟩ 2).1,
      i < (lru_replacement_policy_new 3 2).num_lines ∧ i / 2 = 2) ∧
    (∀ i ∈ (lru_prefer_clean_eviction_index_visits 0 0 0 0 (lru_replacement_policy_new 3 2)
        ⟨2, [⟨1, CLEAN⟩, ⟨2, CLEAN⟩, ⟨3, CLEAN⟩, ⟨4, CLEAN⟩, ⟨5, CLEAN⟩, ⟨6, CLEAN⟩]⟩ 2).1,
      i < (lru_replacement_policy_new 3 2).num_lines ∧ i / 2 = 2) :=
  have h := scans_inside_table 0 0 0 0 3 2 6 (lru_replacement_policy_new 3 2)
    ⟨2, [⟨1, CLEAN⟩, ⟨2, CLEAN⟩, ⟨3, CLEAN⟩, ⟨4, CLEAN⟩, ⟨5, CLEAN⟩, ⟨6, CLEAN⟩]⟩ (by decide)
    (by decide) (by decide) (by decide) (by decide)
  ⟨by decide, by decide, by decide, by decide, h.2.1, h.2.2.1,
    h.2.2.2.2.2.2.2.1.2.1, h.2.2.2.2.2.2.2.2.1.2.2, h.2.2.2.2.2.2.2.2.2.1.2.2⟩

/-- An `onAccess` call below the wrap of the clock keeps `stamps_inv` and
advances the clock by one. -/
theorem lru_cache_access_stamps_inv (d d' : lru_data) (cs : cache_system)
    (set_idx tag : Nat) (hclock : d.current_time + 1 < UINT32_RANGE) (hinv : stamps_inv d)
    (h : lru_cache_access d cs set_idx tag = some d') :
    d'.current_time = d.current_time + 1 ∧ stamps_inv d' := by
  obtain ⟨_, hc, hcase⟩ := lru_cache_access_shape d d' cs set_idx tag h
  have hmod : (d.current_time + 1) % UINT32_RANGE = d.current_time + 1 :=
    Nat.mod_eq_of_lt hclock
  rw [hmod] at hc hcase
  obtain ⟨hle, huniq⟩ := hinv
  refine ⟨hc, ?_⟩
  rcases hcase with htimes | ⟨k, hk, htimes⟩
  · constructor
    · intro i t hi
      rw [htimes] at hi
      have := hle i t hi
      omega
    · intro i j t hij hi hj
      rw [htimes] at hi hj
      exact huniq i j t hij hi hj
  · have hold : ∀ i t, i ≠ k → d'.access_times[i]? = some t → d.access_times[i]? = some t := by
      intro i t hik hi
      rw [htimes, List.getElem?_set_ne (Ne.symm hik)] at hi
      exact hi
    have hnew : ∀ t, d'.access_times[k]? = some t → t = d.current_time + 1 := by
      intro t hi
      rw [htimes, List.getElem?_set_self hk] at hi
      exact (Option.some.inj hi).symm
    constructor
    · intro i t hi
      by_cases hik : i = k
      · subst hik
        rw [hnew t hi, hc]
      · have := hle i t (hold i t hik hi)
        omega
    · intro i j t hij hi hj
      by_cases hik : i = k
      · subst hik
        have h1 := hnew t hi
        have h2 := hle j t (hold j t (Ne.symm hij) hj)
        omega
      · by_cases hjk : j = k
        · subst hjk
          have h1 := hnew t hj
          have h2 := hle i t (hold i t hik hi)
          omega
        · exact huniq i j t hij (hold i t hik hi) (hold j t hjk hj)

/-- A run of calls with fewer `onAccess` calls than the clock has values left
keeps `stamps_inv`; the clock counts the `onAccess` calls. -/
theorem run_calls_stamps_inv (kind : lru_family) (calls : List policy_call) :
    ∀ d d', d.current_time + count_accesses calls < UINT32_RANGE → stamps_inv d →
      run_calls kind d calls = some d' →
      d'.current_time = d.current_time + count_accesses calls ∧ stamps_inv d' := by
  induction calls with
  | nil =>
    intro d d' _ hinv h
    rw [← Option.some.inj h]
    exact ⟨rfl, hinv⟩
  | cons call rest ih =>
    intro d d' hcount hinv h
    simp only [run_calls] at h
    cases hc : lru_family_call kind d call with
    | none => rw [hc] at h; exact absurd h (by simp)
    | some d1 =>
      rw [hc] at h
      rcases lru_family_call_shape kind d d1 call hc with
        ⟨cs, set_idx, tag, hcall, hacc⟩ | ⟨_, _, _, _, _, _, hcall, hd⟩
      · subst hcall
        simp only [count_accesses] at hcount ⊢
        obtain ⟨hc1, hinv1⟩ :=
          lru_cache_access_stamps_inv d d1 cs set_idx tag (by omega) hinv hacc
        obtain ⟨hc', hinv'⟩ := ih d1 d' (by omega) hinv1 h
        exact ⟨by omega, hinv'⟩
      · subst hcall
        subst hd
        simp only [count_accesses] at hcount ⊢
        exact ih d1 d' hcount hinv h

/-- C18: in every state reached from a freshly constructed policy of the LRU
family by a sequence of calls with fewer than 2^32 onAccess calls, the clock is
the number of onAccess calls, every entry of the table is at most the clock,
and two different positions of the table with a non-zero timestamp hold
different timestamps; a sequence of calls that respect the geometry does reach
such a state. -/
theorem timestamps_unique (kind : lru_family) (sets associativity : Nat)
    (calls : List policy_call) (hcount : count_accesses calls < UINT32_RANGE) :
    (∀ d, run_calls kind (lru_family_new kind sets associativity) calls = some d →
      d.current_time = count_accesses calls ∧
      (∀ i, i < d.access_times.length → d.access_times.getD i 0 ≤ d.current_time) ∧
      (∀ i j, i < d.access_times.length → j < d.access_times.length → i ≠ j →
        d.access_times.getD i 0 ≠ 0 → d.access_times.getD i 0 ≠ d.access_times.getD j 0)) ∧
    (1 ≤ associativity → sets * associativity < UINT32_RANGE →
      (∀ c ∈ calls, valid_call sets associativity c) →
      ∃ d, run_calls kind (lru_family_new kind sets associativity) calls = some d) := by
  have hfresh : stamps_inv (lru_family_new kind sets associativity) ∧
      (lru_family_new kind sets associativity).current_time = 0 := by
    have hzero : ∀ (n i t : Nat), (List.replicate n 0)[i]? = some t → t = 0 := by
      intro n i t h
      rw [List.getElem?_replicate] at h
      split at h
      · exact (Option.some.inj h).symm
      · exact absurd h (by simp)
    cases kind
    · exact ⟨⟨fun i t h => by rw [hzero _ i t h]; exact Nat.zero_le _,
        fun i j t _ h _ => hzero _ i t h⟩, rfl⟩
    · exact ⟨⟨fun i t h => by rw [hzero _ i t h]; exact Nat.zero_le _,
        fun i j t _ h _ => hzero _ i t h⟩, rfl⟩
  constructor
  · intro d hd
    obtain ⟨hc, hle, huniq⟩ := run_calls_stamps_inv kind calls _ d
      (by rw [hfresh.2]; omega) hfresh.1 hd
    rw [hfresh.2, Nat.zero_add] at hc
    refine ⟨hc, ?_, ?_⟩
    · intro i hi
      exact hle i _ (getElem?_of_getD _ _ hi)
    · intro i j hi hj hij hne heq
      have h1 := getElem?_of_getD d.access_times i hi
      have h2 := getElem?_of_getD d.access_times j hj
      rw [← heq] at h2
      exact hne (huniq i j _ hij h1 h2)
  · intro ha hgeo hvalid
    apply run_calls_returns kind sets associativity ha hgeo calls _ _ hvalid
    cases kind <;>
      simp [lru_family_new, lru_replacement_policy_new,
        lru_prefer_clean_replacement_policy_new, Nat.mod_eq_of_lt hgeo]

/-- Witness of C18: two sets of two lines, four accesses (one of them a miss)
and a victim selection. -/
theorem timestamps_unique_witness :
    run_calls lru_family.LRU (lru_family_new lru_family.LRU 2 2)
      [policy_call.on_access ⟨2, [⟨10, CLEAN⟩, ⟨20, CLEAN⟩, ⟨30, MODIFIED⟩, ⟨40, CLEAN⟩]⟩ 1 40,
       policy_call.on_access ⟨2, [⟨10, CLEAN⟩, ⟨20, CLEAN⟩, ⟨30, MODIFIED⟩, ⟨40, CLEAN⟩]⟩ 0 99,
       policy_call.select_victim 0 0 0 0
         ⟨2, [⟨10, CLEAN⟩, ⟨20, CLEAN⟩, ⟨30, MODIFIED⟩, ⟨40, CLEAN⟩]⟩ 0,
       policy_call.on_access ⟨2, [⟨99, CLEAN⟩, ⟨20, CLEAN⟩, ⟨30, MODIFIED⟩, ⟨40, CLEAN⟩]⟩ 0 99,
       policy_call.on_access ⟨2, [⟨99, CLEAN⟩, ⟨20, CLEAN⟩, ⟨30, MODIFIED⟩, ⟨40, CLEAN⟩]⟩ 1 40]
      = some ⟨4, 4, [3, 0, 0, 4]⟩ ∧
    (∀ d, run_calls lru_family.LRU (lru_family_new lru_family.LRU 2 2)
      [policy_call.on_access ⟨2, [⟨10, CLEAN⟩, ⟨20, CLEAN⟩, ⟨30, MODIFIED⟩, ⟨40, CLEAN⟩]⟩ 1 40,
       policy_call.on_access ⟨2, [⟨10, CLEAN⟩, ⟨20, CLEAN⟩, ⟨30, MODIFIED⟩, ⟨40, CLEAN⟩]⟩ 0 99,
       policy_call.select_victim 0 0 0 0
         ⟨2, [⟨10, CLEAN⟩, ⟨20, CLEAN⟩, ⟨30, MODIFIED⟩, ⟨40, CLEAN⟩]⟩ 0,
       policy_call.on_access ⟨2, [⟨99, CLEAN⟩, ⟨20, CLEAN⟩, ⟨30, MODIFIED⟩, ⟨40, CLEAN⟩]⟩ 0 99,
       policy_call.on_access ⟨2, [⟨99, CLEAN⟩, ⟨20, CLEAN⟩, ⟨30, MODIFIED⟩, ⟨40, CLEAN⟩]⟩ 1 40]
      = some d →
      d.current_time = 4 ∧
      (∀ i, i < d.access_times.length → d.access_times.getD i 0 ≤ d.current_time) ∧
      (∀ i j, i < d.access_times.length → j < d.access_times.length → i ≠ j →
        d.access_times.getD i 0 ≠ 0 → d.access_times.getD i 0 ≠ d.access_times.getD j 0)) :=
  ⟨by decide,
    (timestamps_unique lru_family.LRU 2 2
      [policy_call.on_access ⟨2, [⟨10, CLEAN⟩, ⟨20, CLEAN⟩, ⟨30, MODIFIED⟩, ⟨40, CLEAN⟩]⟩ 1 40,
       policy_call.on_access ⟨2, [⟨10, CLEAN⟩, ⟨20, CLEAN⟩, ⟨30, MODIFIED⟩, ⟨40, CLEAN⟩]⟩ 0 99,
       policy_call.select_victim 0 0 0 0
         ⟨2, [⟨10, CLEAN⟩, ⟨20, CLEAN⟩, ⟨30, MODIFIED⟩, ⟨40, CLEAN⟩]⟩ 0,
       policy_call.on_access ⟨2, [⟨99, CLEAN⟩, ⟨20, CLEAN⟩, ⟨30, MODIFIED⟩, ⟨40, CLEAN⟩]⟩ 0 99,
       policy_call.on_access ⟨2, [⟨99, CLEAN⟩, ⟨20, CLEAN⟩, ⟨30, MODIFIED⟩, ⟨40, CLEAN⟩]⟩ 1 40]
      (by decide)).1⟩

/-- C19: the LRU victim depends on the timestamps of the set only.  For two
states whose tables agree on the set and two caches of the same associativity,
whatever their tags and status are, `lru_eviction_index` returns the same
offset; hence after the content of the cache is replaced and an access follows
that matches no line of the set, the victim position keeps its timestamp and is
chosen again. -/
theorem lru_eviction_index_ignores_cache
    (index0 min_time0 index1 min_time1 index2 min_time2 sets s tag : Nat)
    (d d' : lru_data) (cs cs' : cache_system) (ha : 1 ≤ cs.associativity)
    (hassoc : cs'.associativity = cs.associativity) (hs : s < sets)
    (hgeo : sets * cs.associativity < UINT32_RANGE)
    (hlen : d.access_times.length = sets * cs.associativity)
    (hlen' : d'.access_times.length = sets * cs.associativity)
    (hlines' : cs'.cache_lines.length = sets * cs.associativity)
    (hagree : ∀ j, j < cs.associativity →
      d.access_times.getD (s * cs.associativity + j) 0 =
        d'.access_times.getD (s * cs.associativity + j) 0)
    (hmiss : ∀ j, j < cs.associativity →
      tag_at cs'.cache_lines (s * cs.associativity + j) ≠ tag) :
    (∃ o, o < cs.associativity ∧ lru_eviction_index index0 min_time0 d cs s = some o ∧
      lru_eviction_index index1 min_time1 d' cs' s = some o) ∧
    (∃ o d1, o < cs.associativity ∧ lru_eviction_index index0 min_time0 d cs s = some o ∧
      lru_cache_access d cs' s tag = some d1 ∧
      d1.access_times.getD (s * cs.associativity + o) 0 =
        d.access_times.getD (s * cs.associativity + o) 0 ∧
      lru_eviction_index index2 min_time2 d1 cs' s = some o) := by
  obtain ⟨_, _, hle⟩ := set_bounds cs sets s hs hgeo
  constructor
  · apply lru_eviction_index_agree index0 min_time0 index1 min_time1 sets s d d' cs cs' ha
      hassoc hs hgeo hlen hlen'
    intro j hj
    rw [getElem?_of_getD d.access_times _ (by omega),
      getElem?_of_getD d'.access_times _ (by omega), hagree j hj]
  · obtain ⟨d1, hres, _, _, hcase⟩ := lru_cache_access_spec sets s tag d cs' hs
      (by rw [hassoc]; exact hgeo) (by rw [hassoc]; exact hlen)
      (by rw [hassoc]; exact hlines')
    rw [hassoc] at hcase
    have htimes : d1.access_times = d.access_times := by
      rcases hcase with ⟨_, h⟩ | ⟨o, ho, htag, _⟩
      · exact h
      · exact absurd htag (hmiss o ho)
    obtain ⟨o, ho, h0, h1⟩ := lru_eviction_index_agree index0 min_time0 index2 min_time2
      sets s d d1 cs cs' ha hassoc hs hgeo hlen (by rw [htimes]; exact hlen)
      (fun _ _ => by rw [htimes])
    exact ⟨o, d1, ho, h0, hres, by rw [htimes], h1⟩

/-- Witness of C19: the victim of the set with timestamps 5, 2, 3, 4 is offset
1; after the tag at that position is replaced by 99 and an access to a tag that
is not in the set follows, the victim is offset 1 again. -/
theorem lru_eviction_index_ignores_cache_witness :
    lru_eviction_index 0 0 ⟨4, 5, [5, 2, 3, 4]⟩
      ⟨4, [⟨10, CLEAN⟩, ⟨20, CLEAN⟩, ⟨30, CLEAN⟩, ⟨40, CLEAN⟩]⟩ 0 = some 1 ∧
    lru_cache_access ⟨4, 5, [5, 2, 3, 4]⟩
      ⟨4, [⟨10, CLEAN⟩, ⟨99, MODIFIED⟩, ⟨30, CLEAN⟩, ⟨40, CLEAN⟩]⟩ 0 77
      = some ⟨4, 6, [5, 2, 3, 4]⟩ ∧
    lru_eviction_index 0 0 ⟨4, 6, [5, 2, 3, 4]⟩
      ⟨4, [⟨10, CLEAN⟩, ⟨99, MODIFIED⟩, ⟨30, CLEAN⟩, ⟨40, CLEAN⟩]⟩ 0 = some 1 ∧
    ((∃ o, o < 4 ∧ lru_eviction_index 0 0 ⟨4, 5, [5, 2, 3, 4]⟩
        ⟨4, [⟨10, CLEAN⟩, ⟨20, CLEAN⟩, ⟨30, CLEAN⟩, ⟨40, CLEAN⟩]⟩ 0 = some o ∧
      lru_eviction_index 1 1 ⟨4, 8, [5, 2, 3, 4]⟩
        ⟨4, [⟨10, CLEAN⟩, ⟨99, MODIFIED⟩, ⟨30, CLEAN⟩, ⟨40, CLEAN⟩]⟩ 0 = some o) ∧
    (∃ o d1, o < 4 ∧ lru_eviction_index 0 0 ⟨4, 5, [5, 2, 3, 4]⟩
        ⟨4, [⟨10, CLEAN⟩, ⟨20, CLEAN⟩, ⟨30, CLEAN⟩, ⟨40, CLEAN⟩]⟩ 0 = some o ∧
      lru_cache_access ⟨4, 5, [5, 2, 3, 4]⟩
        ⟨4, [⟨10, CLEAN⟩, ⟨99, MODIFIED⟩, ⟨30, CLEAN⟩, ⟨40, CLEAN⟩]⟩ 0 77 = some d1 ∧
      d1.access_times.getD (0 * 4 + o) 0 = [5, 2, 3, 4].getD (0 * 4 + o) 0 ∧
      lru_eviction_index 2 2 d1
        ⟨4, [⟨10, CLEAN⟩, ⟨99, MODIFIED⟩, ⟨30, CLEAN⟩, ⟨40, CLEAN⟩]⟩ 0 = some o)) :=
  ⟨by decide, by decide, by decide,
    lru_eviction_index_ignores_cache 0 0 1 1 2 2 1 0 77 ⟨4, 5, [5, 2, 3, 4]⟩
      ⟨4, 8, [5, 2, 3, 4]⟩ ⟨4, [⟨10, CLEAN⟩, ⟨20, CLEAN⟩, ⟨30, CLEAN⟩, ⟨40, CLEAN⟩]⟩
      ⟨4, [⟨10, CLEAN⟩, ⟨99, MODIFIED⟩, ⟨30, CLEAN⟩, ⟨40, CLEAN⟩]⟩ (by decide) (by decide)
      (by decide) (by decide) (by decide) (by decide) (by decide) (by decide) (by decide)⟩

end ReplacementPolicies
